import Mathlib

/-!
O2scl: occupation functions, the relativistic boson engine, the
non-relativistic fermion engine, the integrator over the whole real line and
Kriging interpolation.

A shallow embedding of `src/base/misc.cpp` (`fermi_function`, `bose_function`),
of `src/part/boson_rel.cpp` (`boson_rel`), of `src/part/fermion_nonrel.cpp`
(`fermion_nonrel`), of `src/inte/inte_qagi_gsl.h` and of
`src/base/interp_krige.h`, followed by theorems about them.

Numbers: a C++ `double` is modelled by an element of a linearly ordered field
`α` (exact arithmetic, no rounding and no overflow).  The definitions are
generic in `α`, so they run on `ℚ`; the theorems about `exp` take `α = ℝ` and
`Real.exp`.  An operation whose IEEE result is not a finite number (a zero
divisor, the logarithm of a non-positive number, the square root of a negative
number) yields `none` wherever the source tests finiteness or a statement is
about finiteness.  Temperatures are meant to be non-zero: with `T = 0` the
quotient `(E-mu)/T` is `none` here, whereas IEEE arithmetic would continue with
an infinity.

Where a test of the source depends on the IEEE class of a value that is not
finite, the value is an `xdouble` (finite, `+inf`, `-inf` or NaN).  Where a
statement depends on rounding, underflow or overflow, the source is embedded a
second time in binary64 arithmetic (`b64`, `b64_round`): every operation is
rounded to nearest, ties to even, with subnormal numbers and overflow to an
infinity; the sign of a zero is not modelled.
-/

set_option linter.unusedVariables false
set_option linter.unusedSectionVars false

namespace o2scl

variable {α : Type} [LinearOrderedField α]

/-- Division of two doubles: `none` when the divisor is zero, the case in which
the IEEE quotient is an infinity or a NaN. -/
def fdiv (a b : α) : Option α :=
  if b = 0 then none else some (a / b)

/-- The function `o2scl::fermi_function` of `misc.cpp`, with `exp` of `<cmath>`
a parameter. -/
def fermi_function (exp : α → α) (E mu T limit : α) : Option α :=
  (fdiv (E - mu) T).bind fun x =>
    if x > limit then some 0
    else if x < -limit then some 1
    else fdiv 1 (1 + exp x)

/-- The polynomial part of the series branch of `bose_function`: the value of
`1.0/x-0.5+x/12.0-x3/720.0+x5/30240.0-x7/1209600.0` given `r = 1.0/x`. -/
def bose_series (x r : α) : α :=
  let x2 := x * x
  let x3 := x2 * x
  let x5 := x3 * x2
  let x7 := x5 * x2
  r - 1 / 2 + x / 12 - x3 / 720 + x5 / 30240 - x7 / 1209600

/-- The function `o2scl::bose_function` of `misc.cpp`, with `exp` of `<cmath>`
a parameter. -/
def bose_function (exp : α → α) (E mu T limit : α) : Option α :=
  (fdiv (E - mu) T).bind fun x =>
    if x > limit then some 0
    else if x < -limit then some (-1)
    else if |x| < 1 / 1000 then (fdiv 1 x).map fun r => bose_series x r
    else fdiv 1 (exp x - 1)

/-! ## The relativistic boson engine (`boson_rel.cpp`) -/

/-- The fields of `o2scl::boson` (declared in `part.h`) that `boson_rel.cpp`
reads or writes. -/
structure boson (α : Type) where
  g : α
  m : α
  ms : α
  mu : α
  nu : α
  n : α
  ed : α
  en : α
  pr : α
  inc_rest_mass : Bool
  non_interacting : Bool

/-- Error codes handed to `O2SCL_ERR`; `exc_other` stands for the codes that
integrators and solvers may raise themselves. -/
inductive exc where
  | exc_einval
  | exc_efailed
  | exc_esing
  | exc_other (code : Int)
  deriving DecidableEq, Repr

/-- The two ways a call can stop without returning: an error raised through
`O2SCL_ERR` (the default handler throws), or `exit(status)`. -/
inductive stop where
  | raised (e : exc)
  | exited (status : Int)
  deriving DecidableEq, Repr

/-- Outcome of an operation on a state passed by reference: it returned, or
it stopped, and in both cases `s` is the state at that moment. -/
inductive call (σ : Type) where
  | ok (s : σ)
  | stopped (why : stop) (s : σ)

/-- The type `funct` (`std::function<double(double)>`): the function either
returns a finite double or stops the program. -/
abbrev funct (α : Type) := α → Except stop α

/-- The interface `inte<>`: `integ(func,a,b)` returns the integral or stops. -/
structure inte (α : Type) where
  integ : funct α → α → α → Except stop α

/-- A residual handed to a root finder: it stops, or returns a double that may
be non-finite (`none`). -/
abbrev rfunct (α : Type) := α → Except stop (Option α)

/-- The interface `root<>`: the flag `err_nonconv` and `solve(x,func)`, which
receives the current value of the flag and the initial guess, and returns the
status with the updated guess, or stops. -/
structure root (α : Type) where
  err_nonconv : Bool
  solve : Bool → α → rfunct α → Except stop (Int × α)

/-- What `boson_rel.cpp` takes from files that are not among the sources:
`exp`, `log` and `sqrt` of `<cmath>`; the constant `o2scl_const::pi2`; the
value `limit` that `misc.h` declares as the default of the last argument of
`bose_function`, which the integrands rely on; a default-constructed
`root_brent_gsl<>`; the constructor `boson(mass,dof)` and the method
`part::anti`, with `anti b ax` the value `ax` has after `b.anti(ax)`. -/
structure deps (α : Type) where
  exp : α → α
  log : α → α
  sqrt : α → α
  pi2 : α
  limit : α
  rbg : root α
  boson_ctor : α → α → boson α
  anti : boson α → boson α → boson α

/-- The data members of `boson_rel` that the methods use: the solver
`density_root` and the two integrators `nit` (non-degenerate) and `dit`
(degenerate). -/
structure boson_rel (α : Type) where
  density_root : root α
  nit : inte α
  dit : inte α

/-- Logarithm of a double: `none` for a non-positive argument. -/
def flog (D : deps α) (x : α) : Option α :=
  if x ≤ 0 then none else some (D.log x)

/-- Square root of a double: `none` for a negative argument. -/
def fsqrt (D : deps α) (x : α) : Option α :=
  if x < 0 then none else some (D.sqrt x)

/-- The GSL function `gsl_hypot(x,y)`, the square root of `x^2+y^2`. -/
def gsl_hypot (D : deps α) (x y : α) : α :=
  D.sqrt (x * x + y * y)

/-- The statement `if (b.non_interacting==true) { b.nu=b.mu; b.ms=b.m; }`. -/
def non_interacting_override (b : boson α) : boson α :=
  if b.non_interacting = true then { b with nu := b.mu, ms := b.m } else b

/-- `boson_rel::deg_density_fun`. -/
def deg_density_fun (D : deps α) (k : α) (b : boson α) (T : α) : Except stop α :=
  let E := gsl_hypot D k b.ms
  let ret : Option α := do
    let nx ← bose_function D.exp E b.nu T D.limit
    pure (k * k * nx)
  match ret with
  | none => .ok 0
  | some r => .ok r

/-- `boson_rel::deg_energy_fun`. -/
def deg_energy_fun (D : deps α) (k : α) (b : boson α) (T : α) : Except stop α :=
  let E := gsl_hypot D k b.ms
  let ret : Option α := do
    let nx ← bose_function D.exp E b.nu T D.limit
    pure (k * k * E * nx)
  match ret with
  | none => .ok 0
  | some r => .ok r

/-- `boson_rel::deg_entropy_fun`. -/
def deg_entropy_fun (D : deps α) (k : α) (b : boson α) (T : α) : Except stop α :=
  let E := gsl_hypot D k b.ms
  let ret : Option α := do
    let nx ← bose_function D.exp E b.nu T D.limit
    let l0 ← flog D nx
    let l1 ← flog D (1 + nx)
    pure (-k * k * (nx * l0 - (1 + nx) * l1))
  match ret with
  | none => .ok 0
  | some r => .ok r

/-- The variable `y` of the non-degenerate integrands. -/
def nondeg_y (b : boson α) (T : α) : Option α :=
  if b.inc_rest_mass = true then fdiv b.nu T else fdiv (b.nu + b.m) T

/-- `boson_rel::density_fun`. -/
def density_fun (D : deps α) (u : α) (b : boson α) (T : α) : Except stop α :=
  let ret : Option α := do
    let y ← nondeg_y b T
    let eta ← fdiv b.ms T
    if y - u > 200 ∧ eta - u > 200 then
      if eta + u + y > 100 then pure 0
      else do
        let s ← fsqrt D (u * u + 2 * eta * u)
        fdiv ((eta + u) * s) (D.exp (eta + u - y) - 1)
    else do
      let s ← fsqrt D (u * u + 2 * eta * u)
      fdiv ((eta + u) * s * D.exp y) (D.exp (eta + u) - D.exp y)
  match ret with
  | none => .error (.exited (-1))
  | some r => .ok r

/-- `boson_rel::energy_fun`. -/
def energy_fun (D : deps α) (u : α) (b : boson α) (T : α) : Except stop α :=
  let ret : Option α := do
    let y ← nondeg_y b T
    let eta ← fdiv b.ms T
    if y - u > 200 ∧ eta - u > 200 then
      if eta + u + y > 100 then pure 0
      else do
        let s ← fsqrt D (u * u + 2 * eta * u)
        fdiv ((eta + u) * (eta + u) * s) (D.exp (eta + u - y) - 1)
    else do
      let s ← fsqrt D (u * u + 2 * eta * u)
      fdiv ((eta + u) * (eta + u) * s * D.exp y) (D.exp (eta + u) - D.exp y)
  match ret with
  | none => .error (.exited (-1))
  | some r => .ok r

/-- `boson_rel::entropy_fun`. -/
def entropy_fun (D : deps α) (u : α) (b : boson α) (T : α) : Except stop α :=
  let ret : Option α := do
    let y ← nondeg_y b T
    let eta ← fdiv b.ms T
    if u - eta > 200 ∧ u - y > 200 then pure 0
    else do
      let one ← fdiv 1 1
      let l1 ← flog D (one - D.exp (y - eta - u))
      let term1 := D.exp (eta + u) * l1
      let q ← fdiv 1 (D.exp (eta + u - y) - 1)
      let l2 ← flog D q
      let term2 := D.exp y * l2
      let s ← fsqrt D (u * u + 2 * eta * u)
      fdiv ((eta + u) * s * (term1 + term2)) (D.exp (eta + u) - D.exp y)
  match ret with
  | none => .ok 0
  | some r => .ok r

/-- The quantity `psi` as `calc_mu` and `solve_fun` compute it. -/
def psi_of (b : boson α) (T : α) : α :=
  if b.inc_rest_mass = true then (b.nu - b.ms) / T
  else (b.nu + (b.m - b.ms)) / T

/-- The flag `deg` of `calc_mu` and `solve_fun`:
`bool deg=true; double deg_limit=-0.5; if (psi<deg_limit) deg=false;`. -/
def deg_of (psi : α) : Bool :=
  if psi < -(1 / 2) then false else true

/-- The quantity `arg` of `calc_mu` and `solve_fun`, with
`upper_limit_fac=20.0`. -/
def upper_limit_arg (b : boson α) (T : α) : α :=
  if b.inc_rest_mass = true then (20 * T + b.nu) ^ 2 - b.ms * b.ms
  else (20 * T + b.nu + b.m) ^ 2 - b.ms * b.ms

/-- The degenerate block of `calc_mu`: three calls of `dit->integ` over
`[0,ul]`, each followed by the factor `b.g/2.0/pi2`.  The integrands are bound
to `b` by reference, hence to its value at the time of the call. -/
def calc_mu_deg (D : deps α) (br : boson_rel α) (b : boson α) (temper ul : α) :
    call (boson α) :=
  match br.dit.integ (fun k => deg_density_fun D k b temper) 0 ul with
  | .error e => .stopped e b
  | .ok vn =>
    let b1 := { b with n := vn * (b.g / 2 / D.pi2) }
    match br.dit.integ (fun k => deg_energy_fun D k b1 temper) 0 ul with
    | .error e => .stopped e b1
    | .ok ve =>
      let b2 := { b1 with ed := ve * (b1.g / 2 / D.pi2) }
      match br.dit.integ (fun k => deg_entropy_fun D k b2 temper) 0 ul with
      | .error e => .stopped e b2
      | .ok vs => .ok { b2 with en := vs * (b2.g / 2 / D.pi2) }

/-- The non-degenerate block of `calc_mu`: three calls of
`nit->integ(...,0.0,0.0)` with `prefac=b.g*pow(temper,3.0)/2.0/pi2`. -/
def calc_mu_nondeg (D : deps α) (br : boson_rel α) (b : boson α) (temper : α) :
    call (boson α) :=
  let prefac := b.g * temper ^ 3 / 2 / D.pi2
  match br.nit.integ (fun u => density_fun D u b temper) 0 0 with
  | .error e => .stopped e b
  | .ok vn =>
    let b1 := { b with n := vn * prefac }
    match br.nit.integ (fun u => energy_fun D u b1 temper) 0 0 with
    | .error e => .stopped e b1
    | .ok ve =>
      let ed1 := ve * (prefac * temper)
      let b2 := { b1 with ed := if b1.inc_rest_mass = true then ed1 else ed1 - b1.n * b1.m }
      match br.nit.integ (fun u => entropy_fun D u b2 temper) 0 0 with
      | .error e => .stopped e b2
      | .ok vs => .ok { b2 with en := vs * prefac }

/-- The last statement of `calc_mu`, reached when the block before it has
returned: `b.pr=-b.ed+temper*b.en+b.mu*b.n;`. -/
def calc_mu_finish (temper : α) (r : call (boson α)) : call (boson α) :=
  match r with
  | .stopped e b1 => .stopped e b1
  | .ok b1 => .ok { b1 with pr := -b1.ed + temper * b1.en + b1.mu * b1.n }

/-- The method `boson_rel::calc_mu`. -/
def calc_mu (D : deps α) (br : boson_rel α) (b : boson α) (temper : α) :
    call (boson α) :=
  if temper ≤ 0 then .stopped (.raised .exc_einval) b
  else
    let b0 := non_interacting_override b
    let psi := psi_of b0 temper
    if psi > 0 then .stopped (.raised .exc_einval) b0
    else
      calc_mu_finish temper
        (if deg_of psi = true then
          let arg := upper_limit_arg b0 temper
          if arg > 0 then calc_mu_deg D br b0 temper (D.sqrt arg)
          else .stopped (.raised .exc_efailed) b0
        else calc_mu_nondeg D br b0 temper)

/-- The degenerate block of `solve_fun`: `nden=dit->integ(fd,0.0,ul)` with
`ul=sqrt(arg)` taken without a test (a negative `arg` gives whatever `D.sqrt`
returns), then `nden*=b.g/2.0/pi2`. -/
def solve_fun_deg (D : deps α) (br : boson_rel α) (b : boson α) (T : α) :
    Except stop α :=
  match br.dit.integ (fun k => deg_density_fun D k b T) 0
      (D.sqrt (upper_limit_arg b T)) with
  | .error e => .error e
  | .ok v => .ok (v * (b.g / 2 / D.pi2))

/-- The non-degenerate block of `solve_fun`: `nden=nit->integ(mfd,0.0,0.0)`,
then `nden*=prefac`. -/
def solve_fun_nondeg (D : deps α) (br : boson_rel α) (b : boson α) (T : α) :
    Except stop α :=
  match br.nit.integ (fun u => density_fun D u b T) 0 0 with
  | .error e => .error e
  | .ok v => .ok (v * (b.g * T ^ 3 / 2 / D.pi2))

/-- The last statements of `solve_fun`: `double yy=nden/b.n-1.0; return yy;`. -/
def solve_fun_finish (b : boson α) (nden : Except stop α) : Except stop (Option α) :=
  match nden with
  | .error e => .error e
  | .ok nd => .ok ((fdiv nd b.n).map fun q => q - 1)

/-- The method `boson_rel::solve_fun`. -/
def solve_fun (D : deps α) (br : boson_rel α) (x : α) (b : boson α) (T : α) :
    Except stop (Option α) :=
  let psi := psi_of b T
  solve_fun_finish b
    (if deg_of psi = true then solve_fun_deg D br b T
     else solve_fun_nondeg D br b T)

/-- Assignment to `density_root->err_nonconv`. -/
def set_err_nonconv (br : boson_rel α) (v : Bool) : boson_rel α :=
  { br with density_root := { br.density_root with err_nonconv := v } }

/-- The method `boson_rel::nu_from_n`; the state is the engine (for the flag
of `density_root`) and the particle.  `temper` is meant to be non-zero. -/
def nu_from_n (D : deps α) (br : boson_rel α) (b : boson α) (temper : α) :
    call (boson_rel α × boson α) :=
  let nex := b.nu / temper
  let ec := br.density_root.err_nonconv
  let br0 := set_err_nonconv br false
  match br0.density_root.solve br0.density_root.err_nonconv nex
      (fun x => solve_fun D br0 x b temper) with
  | .error e => .stopped e (br0, b)
  | .ok (ret1, nex1) =>
    let br1 := set_err_nonconv br0 ec
    if ret1 ≠ 0 then
      let rbg : root α := { D.rbg with err_nonconv := false }
      match rbg.solve rbg.err_nonconv nex1 (fun x => solve_fun D br1 x b temper) with
      | .error e => .stopped e (br1, b)
      | .ok (ret2, nex2) =>
        if ret2 ≠ 0 then .stopped (.raised .exc_efailed) (br1, b)
        else .ok (br1, { b with nu := nex2 * temper })
    else .ok (br1, { b with nu := nex1 * temper })

/-- The method `boson_rel::calc_density`.  The upper limit is
`sqrt(pow(20.0*temper+b.nu,2.0)-b.ms*b.ms)`, taken without a test. -/
def calc_density (D : deps α) (br : boson_rel α) (b : boson α) (temper : α) :
    call (boson_rel α × boson α) :=
  if temper ≤ 0 then .stopped (.raised .exc_einval) (br, b)
  else
    let b0 := non_interacting_override b
    match nu_from_n D br b0 temper with
    | .stopped e s => .stopped e s
    | .ok (br1, b1) =>
      match br1.dit.integ (fun k => deg_energy_fun D k b1 temper) 0
          (D.sqrt ((20 * temper + b1.nu) ^ 2 - b1.ms * b1.ms)) with
      | .error e => .stopped e (br1, b1)
      | .ok ve =>
        let b2 := { b1 with ed := ve * (b1.g / 2 / D.pi2) }
        match br1.dit.integ (fun k => deg_entropy_fun D k b2 temper) 0
            (D.sqrt ((20 * temper + b2.nu) ^ 2 - b2.ms * b2.ms)) with
        | .error e => .stopped e (br1, b2)
        | .ok vs =>
          let b3 := { b2 with en := vs * (b2.g / 2 / D.pi2) }
          .ok (br1, { b3 with pr := -b3.ed + temper * b3.en + b3.mu * b3.n })

/-- The antiparticle object of `pair_mu`:
`boson antip(b.ms,b.g); b.anti(antip);`. -/
def antip_of (D : deps α) (b : boson α) : boson α :=
  D.anti b (D.boson_ctor b.ms b.g)

/-- The method `boson_rel::pair_mu`. -/
def pair_mu (D : deps α) (br : boson_rel α) (b : boson α) (temper : α) :
    call (boson α) :=
  let b0 := non_interacting_override b
  match calc_mu D br b0 temper with
  | .stopped e b1 => .stopped e b1
  | .ok b1 =>
    match calc_mu D br (antip_of D b1) temper with
    | .stopped e _ => .stopped e b1
    | .ok antip =>
      .ok { b1 with n := b1.n - antip.n, pr := b1.pr + antip.pr,
                    ed := b1.ed + antip.ed, en := b1.en + antip.en }

/-- The argument `x=(E-mu)/T` that `bose_function` forms when a degenerate
integrand calls it with `E=gsl_hypot(k,b.ms)` and `mu=b.nu`. -/
def deg_bose_arg (D : deps α) (k : α) (b : boson α) (T : α) : Option α :=
  fdiv (gsl_hypot D k b.ms - b.nu) T

/-- The quantity `eta+u-y` of the non-degenerate integrands. -/
def nondeg_arg (u : α) (b : boson α) (T : α) : Option α := do
  let y ← nondeg_y b T
  let eta ← fdiv b.ms T
  pure (eta + u - y)

/-- A record `deps` with the given `exp`, `log`, `sqrt`, `pi2` and `limit`; a
`root_brent_gsl<>` that reports success at its guess, a constructor that fills
in zeros and an antiparticle with sign-flipped `mu` and `nu`. -/
def deps_of (exp log sqrt : α → α) (pi2 limit : α) : deps α :=
  { exp := exp
    log := log
    sqrt := sqrt
    pi2 := pi2
    limit := limit
    rbg := { err_nonconv := true, solve := fun _ x _ => .ok (0, x) }
    boson_ctor := fun mass dof =>
      { g := dof, m := mass, ms := 0, mu := 0, nu := 0, n := 0, ed := 0, en := 0, pr := 0,
        inc_rest_mass := true, non_interacting := true }
    anti := fun b ax =>
      { ax with g := b.g, m := b.m, ms := b.ms, inc_rest_mass := b.inc_rest_mass,
                non_interacting := b.non_interacting, mu := -b.mu, nu := -b.nu } }

/-! ## The non-relativistic fermion engine (`fermion_nonrel.cpp`) -/

/-- The fields of `o2scl::fermion` (declared in `fermion.h` and `part.h`) that
`fermion_nonrel.cpp` reads or writes. -/
structure fermion (α : Type) where
  g : α
  m : α
  ms : α
  mu : α
  nu : α
  n : α
  ed : α
  en : α
  pr : α
  kf : α
  inc_rest_mass : Bool
  non_interacting : Bool

/-- What the closed-form part of `fermion_nonrel.cpp` takes from files that are
not among the sources: `sqrt` and `pow` of `<cmath>` (`pow` is used here for
the exponents `1.5` and `2.5`; `pow(x,5.0)` is the exact fifth power), the
constants `o2scl_const::pi` and `o2scl_const::pi2`, and the inherited method
`kf_from_density`, with `kf_from_density f` the value of `f` after the call. -/
structure fermion_deps (α : Type) where
  sqrt : α → α
  pow : α → α → α
  pi : α
  pi2 : α
  kf_from_density : fermion α → fermion α

/-- What only the finite-temperature part takes from outside: the two GSL
Fermi-Dirac integrals, the constant `GSL_LOG_DBL_MIN`, the method `solve_bkt`
of a default-constructed `root_brent_gsl<>` (it receives the flag, the two
ends of the bracket and the residual, and returns the status with the new
value of its first argument), and `classical_thermo::calc_density`, with
`classical_calc_density f temper` the value of `f` after the call. -/
structure fermion_ext (α : Type) where
  gsl_sf_fermi_dirac_half : α → α
  gsl_sf_fermi_dirac_3half : α → α
  GSL_LOG_DBL_MIN : α
  solve_bkt : Bool → α → α → rfunct α → Except stop (Int × α)
  classical_calc_density : fermion α → α → fermion α

/-- The data member of `fermion_nonrel` that the methods use: the solver
`density_root`. -/
structure fermion_nonrel (α : Type) where
  density_root : root α

/-- Outcome of a method that returns an `int`: it returned `ret`, or it
stopped; `s` is the state at that moment. -/
inductive icall (σ : Type) where
  | returned (ret : Int) (s : σ)
  | stopped (why : stop) (s : σ)

/-- The statement `if (f.non_interacting) { f.nu=f.mu; f.ms=f.m; }`. -/
def fermion_override (f : fermion α) : fermion α :=
  if f.non_interacting = true then { f with nu := f.mu, ms := f.m } else f

/-- The method `fermion_nonrel::calc_mu_zerot`. -/
def fermion_nonrel.calc_mu_zerot (D : fermion_deps α) (f : fermion α) : fermion α :=
  let f0 := fermion_override f
  let kf :=
    if f0.inc_rest_mass = true then D.sqrt (2 * f0.ms * (f0.nu - f0.m))
    else D.sqrt (2 * f0.ms * f0.nu)
  let n := kf * kf * kf * f0.g / 6 / D.pi2
  let ed0 := f0.g * kf ^ 5 / 20 / D.pi2 / f0.ms
  let ed := if f0.inc_rest_mass = true then ed0 + n * f0.m else ed0
  { f0 with kf := kf, n := n, ed := ed, pr := -ed + n * f0.nu, en := 0 }

/-- The method `fermion_nonrel::calc_density_zerot`. -/
def fermion_nonrel.calc_density_zerot (D : fermion_deps α) (f : fermion α) : fermion α :=
  let f0 := if f.non_interacting = true then { f with ms := f.m } else f
  let f1 := D.kf_from_density f0
  let nu0 := f1.kf * f1.kf / 2 / f1.ms
  let ed0 := f1.g * f1.kf ^ 5 / 20 / D.pi2 / f1.ms
  let ed := if f1.inc_rest_mass = true then ed0 + f1.n * f1.m else ed0
  let nu := if f1.inc_rest_mass = true then nu0 + f1.m else nu0
  let f2 := { f1 with nu := nu, ed := ed, pr := -ed + f1.n * nu, en := 0 }
  if f2.non_interacting = true then { f2 with mu := f2.nu } else f2

/-- The block shared by `calc_mu` and `calc_density` that finishes the energy
density (`ed0` is the value of `f.ed` before it) and sets entropy and
pressure. -/
def fermion_nonrel.finish (D : fermion_deps α) (f : fermion α) (temper ed0 : α) :
    fermion α :=
  let ed1 := ed0 * (f.g * D.pow (2 * f.ms * temper) (5 / 2) / 8 / D.pi2 / f.ms)
  if f.inc_rest_mass = true then
    let ed := ed1 + f.n * f.m
    { f with ed := ed, en := (5 * (ed - f.n * f.m) / 3 - (f.nu - f.m) * f.n) / temper,
             pr := 2 * (ed - f.n * f.m) / 3 }
  else
    { f with ed := ed1, en := (5 * ed1 / 3 - f.nu * f.n) / temper, pr := 2 * ed1 / 3 }

/-- The method `fermion_nonrel::calc_mu`.  In exact arithmetic `f.nu` and `f.n`
are finite, so the closing test `!std::isfinite(f.nu) || !std::isfinite(f.n)`
does not fire. -/
def fermion_nonrel.calc_mu (D : fermion_deps α) (X : fermion_ext α) (f : fermion α)
    (temper : α) : call (fermion α) :=
  if temper < 0 then .stopped (.raised .exc_einval) f
  else if temper = 0 then .ok (fermion_nonrel.calc_mu_zerot D f)
  else
    let f0 := fermion_override f
    if f0.ms < 0 then .stopped (.raised .exc_einval) f0
    else if temper ≤ 0 then .ok (fermion_nonrel.calc_mu_zerot D f0)
    else
      let y := if f0.inc_rest_mass = true then (f0.nu - f0.m) / temper else f0.nu / temper
      let n0 := X.gsl_sf_fermi_dirac_half y * D.sqrt D.pi / 2
      let f1 := { f0 with n := n0 * (f0.g * D.pow (2 * f0.ms * temper) (3 / 2) / 4 / D.pi2) }
      let ed0 := X.gsl_sf_fermi_dirac_3half y * (3 / 4) * D.sqrt D.pi
      .ok (fermion_nonrel.finish D f1 temper ed0)

/-- The method `fermion_nonrel::solve_fun`; `x` is finite in exact arithmetic,
and the quotient `nden/nog` is `none` when `nog` is zero. -/
def fermion_nonrel.solve_fun (D : fermion_deps α) (X : fermion_ext α) (x nog msT : α) :
    Option α :=
  let nden0 :=
    if -x < X.GSL_LOG_DBL_MIN then 0
    else X.gsl_sf_fermi_dirac_half (-x) * D.sqrt D.pi / 2
  let nden := nden0 * (D.pow (2 * msT) (3 / 2) / 4 / D.pi2)
  (fdiv nden nog).map fun q => q - 1

/-- A double together with its IEEE class: a finite value, one of the two
infinities, or a NaN.  Finite values are exact, and a zero is `+0.0`. -/
inductive xdouble (α : Type) where
  | fin (v : α)
  | pinf
  | ninf
  | nan
  deriving DecidableEq

/-- The finite value of a double, `none` for an infinity or a NaN. -/
def xdouble.toOption : xdouble α → Option α
  | .fin v => some v
  | _ => none

/-- The test `y>0.0`: true of `+inf`, false of a NaN. -/
def xdouble.pos : xdouble α → Bool
  | .fin v => decide (v > 0)
  | .pinf => true
  | _ => false

/-- The test `y<0.0`: true of `-inf`, false of a NaN. -/
def xdouble.neg : xdouble α → Bool
  | .fin v => decide (v < 0)
  | .ninf => true
  | _ => false

/-- The IEEE quotient `a/b` of two finite doubles: with the divisor `+0.0` it
is `+inf`, `-inf` or a NaN according to the sign of `a`. -/
def xdiv (a b : α) : xdouble α :=
  if b = 0 then
    if a > 0 then .pinf else if a < 0 then .ninf else .nan
  else .fin (a / b)

/-- The IEEE difference `a-c` with `c` finite: an infinity and a NaN stay as
they are. -/
def xsub_fin (a : xdouble α) (c : α) : xdouble α :=
  match a with
  | .fin v => .fin (v - c)
  | .pinf => .pinf
  | .ninf => .ninf
  | .nan => .nan

/-- The IEEE product `a*b`: an infinity times a non-zero value is an infinity
with the product of the signs, an infinity times zero is a NaN, and a NaN
times anything is a NaN. -/
def xmul : xdouble α → xdouble α → xdouble α
  | .nan, _ => .nan
  | _, .nan => .nan
  | .fin a, .fin b => .fin (a * b)
  | .fin a, .pinf => if a > 0 then .pinf else if a < 0 then .ninf else .nan
  | .fin a, .ninf => if a > 0 then .ninf else if a < 0 then .pinf else .nan
  | .pinf, .fin b => if b > 0 then .pinf else if b < 0 then .ninf else .nan
  | .ninf, .fin b => if b > 0 then .ninf else if b < 0 then .pinf else .nan
  | .pinf, .pinf => .pinf
  | .pinf, .ninf => .ninf
  | .ninf, .pinf => .ninf
  | .ninf, .ninf => .pinf

/-- The double that `fermion_nonrel::solve_fun` returns, with its IEEE class
when it is not finite: `nden/nog-1.0` is an infinity or a NaN when `nog` is
zero.  Its finite part is `fermion_nonrel.solve_fun`.  A zero `nog` of the
other sign flips the sign of the residual at every `x` alike, which leaves the
two tests of the bracket search as they are. -/
def fermion_nonrel.solve_fun_ieee (D : fermion_deps α) (X : fermion_ext α) (x nog msT : α) :
    xdouble α :=
  let nden0 :=
    if -x < X.GSL_LOG_DBL_MIN then 0
    else X.gsl_sf_fermi_dirac_half (-x) * D.sqrt D.pi / 2
  let nden := nden0 * (D.pow (2 * msT) (3 / 2) / 4 / D.pi2)
  xsub_fin (xdiv nden nog) 1

/-- The test `yhigh*ylow>0.0`, with the IEEE product: true also of two
infinities of the same sign, false whenever a factor is zero or a NaN. -/
def prod_pos (yhigh ylow : xdouble α) : Bool :=
  (xmul yhigh ylow).pos

/-- The test `(yhigh<0.0 && ylow>0.0) || (yhigh>0.0 && ylow<0.0)`. -/
def sign_change (yhigh ylow : xdouble α) : Bool :=
  (yhigh.neg && ylow.pos) || (yhigh.pos && ylow.neg)

/-- The loop `for(size_t j=0;j<10 && yhigh*ylow>0.0;j++)` of `nu_from_n`, with
`steps` the number of values of `j` still allowed; the result is
`(blow, bhigh, yhigh, ylow)` at the exit of the loop. -/
def bracket_search (mf : α → xdouble α) : Nat → α → α → xdouble α → xdouble α →
    α × α × xdouble α × xdouble α
  | 0, blow, bhigh, yhigh, ylow => (blow, bhigh, yhigh, ylow)
  | steps + 1, blow, bhigh, yhigh, ylow =>
    if prod_pos yhigh ylow = true then
      let delta := |blow|
      let blow1 := blow + delta
      let bhigh1 := bhigh - delta
      bracket_search mf steps blow1 bhigh1 (mf bhigh1) (mf blow1)
    else (blow, bhigh, yhigh, ylow)

/-- The initial guess of `nu_from_n` from the current `f.nu`. -/
def fermion_nonrel.guess (f : fermion α) (temper : α) : α :=
  if f.inc_rest_mass = true then -(f.nu - f.m) / temper else -f.nu / temper

/-- Assignment to `density_root->err_nonconv`. -/
def fermion_nonrel.set_err_nonconv (fr : fermion_nonrel α) (v : Bool) : fermion_nonrel α :=
  { fr with density_root := { fr.density_root with err_nonconv := v } }

/-- The last statements of `nu_from_n`: the flag is restored and `f.nu` is set
from the root `nex`. -/
def fermion_nonrel.nu_from_n_finish (fr : fermion_nonrel α) (enc : Bool) (f : fermion α)
    (temper nex : α) : call (fermion_nonrel α × fermion α) :=
  .ok (fermion_nonrel.set_err_nonconv fr enc,
       { f with nu := if f.inc_rest_mass = true then -nex * temper + f.m else -nex * temper })

/-- The second stage of `nu_from_n`, entered with the status `ret` of the
stages before: the reseed from `classical_thermo` and the last call of the
solver, with the raise `O2SCL_ERR("Solver failed ...",ret)`. -/
def fermion_nonrel.nu_from_n_retry (X : fermion_ext α) (fr : fermion_nonrel α)
    (enc : Bool) (mf : α → Option α) (f : fermion α) (temper : α) (ret : Int) (nex : α) :
    call (fermion_nonrel α × fermion α) :=
  if ret ≠ 0 then
    let f1 := X.classical_calc_density f temper
    match fr.density_root.solve fr.density_root.err_nonconv
        (fermion_nonrel.guess f1 temper) (fun x => .ok (mf x)) with
    | .error e => .stopped e (fr, f1)
    | .ok (ret2, nex2) =>
      if ret2 ≠ 0 then .stopped (.raised (.exc_other ret2)) (fr, f1)
      else fermion_nonrel.nu_from_n_finish fr enc f1 temper nex2
  else fermion_nonrel.nu_from_n_finish fr enc f temper nex

/-- The method `fermion_nonrel::nu_from_n`; the state is the engine (for the
flag of `density_root`) and the particle.  The residual is bound to the values
of `f.n/f.g` and `f.ms*temper` at the time of the `std::bind`; `temper` and
`f.g` are meant to be non-zero.  The solvers see the finite part `mf` of the
residual, the tests of the bracket search the double `mfx` with its IEEE
class. -/
def fermion_nonrel.nu_from_n (D : fermion_deps α) (X : fermion_ext α)
    (fr : fermion_nonrel α) (f : fermion α) (temper : α) :
    call (fermion_nonrel α × fermion α) :=
  let nex0 := fermion_nonrel.guess f temper
  let nex := if nex0 > -X.GSL_LOG_DBL_MIN * (9 / 10) then -X.GSL_LOG_DBL_MIN / 2 else nex0
  let mf : α → Option α := fun x => fermion_nonrel.solve_fun D X x (f.n / f.g) (f.ms * temper)
  let mfx : α → xdouble α :=
    fun x => fermion_nonrel.solve_fun_ieee D X x (f.n / f.g) (f.ms * temper)
  let enc := fr.density_root.err_nonconv
  let fr0 := fermion_nonrel.set_err_nonconv fr false
  match fr0.density_root.solve fr0.density_root.err_nonconv nex (fun x => .ok (mf x)) with
  | .error e => .stopped e (fr0, f)
  | .ok (ret, nex1) =>
    if ret ≠ 0 then
      let blow := |nex1|
      let bhigh := -blow
      match bracket_search mfx 10 blow bhigh (mfx bhigh) (mfx blow) with
      | (blow1, bhigh1, yhigh, ylow) =>
        if sign_change yhigh ylow = true then
          match X.solve_bkt false blow1 bhigh1 (fun x => .ok (mf x)) with
          | .error e => .stopped e (fr0, f)
          | .ok (ret1, blow2) =>
            fermion_nonrel.nu_from_n_retry X fr0 enc mf f temper ret1
              (if ret1 = 0 then blow2 else nex1)
        else fermion_nonrel.nu_from_n_retry X fr0 enc mf f temper ret nex1
    else fermion_nonrel.nu_from_n_retry X fr0 enc mf f temper ret nex1

/-- The method `fermion_nonrel::calc_density`. -/
def fermion_nonrel.calc_density (D : fermion_deps α) (X : fermion_ext α)
    (fr : fermion_nonrel α) (f : fermion α) (temper : α) :
    icall (fermion_nonrel α × fermion α) :=
  if f.m < 0 ∨ (f.non_interacting = false ∧ f.ms < 0) then
    .stopped (.raised .exc_einval) (fr, f)
  else if temper < 0 then .stopped (.raised .exc_einval) (fr, f)
  else if temper = 0 then .returned 0 (fr, fermion_nonrel.calc_density_zerot D f)
  else if f.n ≤ 0 then .stopped (.raised .exc_einval) (fr, f)
  else
    match fermion_nonrel.nu_from_n D X fr (fermion_override f) temper with
    | .stopped e s => .stopped e s
    | .ok (fr1, f1) =>
      let f2 := if f1.non_interacting = true then { f1 with mu := f1.nu } else f1
      let y := fermion_nonrel.guess f2 temper
      let ed0 := X.gsl_sf_fermi_dirac_3half (-y) * D.sqrt D.pi * (3 / 4)
      .returned 0 (fr1, fermion_nonrel.finish D f2 temper ed0)

/-- The factor `[inc_rest_mass]`: `1` when the rest mass is included, else `0`. -/
def rest_mass_flag (f : fermion α) : α :=
  if f.inc_rest_mass = true then 1 else 0

/-- The residual `mf` that `fermion_nonrel::nu_from_n` binds, as the solvers
see it: the finite part of `solve_fun(x, f.n/f.g, f.ms*temper)`. -/
def fermion_nonrel.mf (D : fermion_deps α) (X : fermion_ext α) (f : fermion α)
    (temper : α) : α → Option α :=
  fun x => fermion_nonrel.solve_fun D X x (f.n / f.g) (f.ms * temper)

/-- The residual of `fermion_nonrel::nu_from_n` as the tests of the bracket
search see it: the double `solve_fun(x, f.n/f.g, f.ms*temper)` with its IEEE
class. -/
def fermion_nonrel.mfx (D : fermion_deps α) (X : fermion_ext α) (f : fermion α)
    (temper : α) : α → xdouble α :=
  fun x => fermion_nonrel.solve_fun_ieee D X x (f.n / f.g) (f.ms * temper)

/-- The starting value handed to the primary solver by `nu_from_n`: the guess,
replaced by `-GSL_LOG_DBL_MIN/2.0` when it exceeds `-GSL_LOG_DBL_MIN*0.9`. -/
def fermion_nonrel.start (X : fermion_ext α) (f : fermion α) (temper : α) : α :=
  if fermion_nonrel.guess f temper > -X.GSL_LOG_DBL_MIN * (9 / 10)
  then -X.GSL_LOG_DBL_MIN / 2 else fermion_nonrel.guess f temper

/-! ## The integrator `inte_qagi_gsl` (`inte_qagi_gsl.h`) -/

/-- The members that `inte_qagi_gsl` inherits from `inte_transform_gsl`, which
is not among the sources: the tolerances and the method `qags`, which receives
the integrand as it is seen through the virtual method `transform`, the two
limits and the two tolerances, and returns the status, `res` and `err`. -/
structure inte_qagi_gsl (α : Type) where
  tol_abs : α
  tol_rel : α
  qags : (α → Option α) → α → α → α → α → Int × α × α

/-- The method `inte_qagi_gsl::transform`, for a function `func` that returns
finite values. -/
def inte_qagi_gsl.transform (t : α) (func : α → α) : Option α :=
  (fdiv (1 - t) t).bind fun x =>
    let y1 := func x
    let y2 := func (-x)
    (fdiv (y1 + y2) t).bind fun q => fdiv q t

/-- The method `inte_qagi_gsl::integ_err`; the result is the status with `res`
and `err`. -/
def inte_qagi_gsl.integ_err (I : inte_qagi_gsl α) (func : α → α) (a b : α) :
    Int × α × α :=
  I.qags (fun t => inte_qagi_gsl.transform t func) 0 1 I.tol_abs I.tol_rel

/-! ## Kriging interpolation (`interp_krige.h`) -/

/-- The functions of `o2scl_linalg` and of `vector.h` that `interp_krige.h`
calls and that are not among the sources, and `exp` of `<cmath>`.  A vector is
a function of the index, a matrix a function of the row and of the column.
`LU_decomp(n,A,p,signum)` yields the decomposed matrix and the permutation
(`signum` is never read), `cholesky_decomp(n,A,false)` the status and the
decomposed matrix; `vector_copy_jackknife(src,k,dest)` yields `dest`. -/
structure krige_deps (α : Type) where
  exp : α → α
  LU_decomp : Nat → (Nat → Nat → α) → (Nat → Nat → α) × (Nat → Nat)
  diagonal_has_zero : Nat → (Nat → Nat → α) → Bool
  LU_invert : Nat → (Nat → Nat → α) → (Nat → Nat) → (Nat → Nat → α)
  LU_lndet : Nat → (Nat → Nat → α) → α
  cholesky_decomp : Nat → (Nat → Nat → α) → Int × (Nat → Nat → α)
  cholesky_invert : Nat → (Nat → Nat → α) → (Nat → Nat → α)
  vector_copy_jackknife : (Nat → α) → Nat → (Nat → α)

/-- The data members of `interp_krige` and those it inherits from
`interp_base` that the methods below use; `f`, `px` and `py` are the objects
the pointers refer to. -/
structure interp_krige (α : Type) where
  min_size : Nat
  matrix_mode : Nat
  Kinvf : Nat → α
  f : α → α → α
  px : Nat → α
  py : Nat → α
  sz : Nat

/-- The constant `interp_krige::matrix_cholesky`. -/
def matrix_cholesky : Nat := 0

/-- The constant `interp_krige::matrix_LU`. -/
def matrix_LU : Nat := 1

/-- The double loop that fills `KXX`: below the diagonal the element is copied
from the one above the diagonal, which the loop has set before; on the
diagonal `noise_var` is added; `entry irow icol` is the covariance of the
points `irow` and `icol`. -/
def KXX_fill (entry : Nat → Nat → α) (noise_var : α) : Nat → Nat → α :=
  fun irow icol =>
    if irow > icol then entry icol irow
    else if irow = icol then entry irow icol + noise_var
    else entry irow icol

/-- The call `boost::numeric::ublas::axpy_prod(m,v,w,true)` on an `n` by `n`
matrix: `w` is set to the product of `m` and `v`. -/
def axpy_prod (n : Nat) (m : Nat → Nat → α) (v : Nat → α) : Nat → α :=
  fun i => Finset.sum (Finset.range n) fun k => m i k * v k

/-- The method `interp_krige::set_covar_noise`. -/
def interp_krige.set_covar_noise (D : krige_deps α) (k : interp_krige α) (n_dim : Nat)
    (x y : Nat → α) (fcovar : α → α → α) (noise_var : α) (err_on_fail : Bool) :
    icall (interp_krige α) :=
  if n_dim < k.min_size then .stopped (.raised .exc_einval) k
  else
    let k0 := { k with f := fcovar }
    let KXX := KXX_fill (fun irow icol => fcovar (x irow) (x icol)) noise_var
    if k.matrix_mode = matrix_LU then
      match D.LU_decomp n_dim KXX with
      | (lu, p) =>
        if D.diagonal_has_zero n_dim lu = true then
          if err_on_fail = true then .stopped (.raised .exc_esing) k0
          else .returned 1 k0
        else
          let inv_KXX := D.LU_invert n_dim lu p
          .returned 0
            { k0 with Kinvf := axpy_prod n_dim inv_KXX y, px := x, py := y, sz := n_dim }
    else
      match D.cholesky_decomp n_dim KXX with
      | (cret, ch) =>
        if cret ≠ 0 then
          if err_on_fail = true then .stopped (.raised .exc_esing) k0
          else .returned 2 k0
        else
          let inv_KXX := D.cholesky_invert n_dim ch
          .returned 0
            { k0 with Kinvf := axpy_prod n_dim inv_KXX y, px := x, py := y, sz := n_dim }

/-- The method `interp_krige::set_covar`. -/
def interp_krige.set_covar (D : krige_deps α) (k : interp_krige α) (n_dim : Nat)
    (x y : Nat → α) (fcovar : α → α → α) (err_on_fail : Bool) : icall (interp_krige α) :=
  interp_krige.set_covar_noise D k n_dim x y fcovar 0 err_on_fail

/-- The method `interp_krige::eval`: the loop adds the terms to `ret=0.0` in
the order of the index. -/
def interp_krige.eval (k : interp_krige α) (x0 : α) : α :=
  (List.range k.sz).foldl (fun ret i => ret + k.f x0 (k.px i) * k.Kinvf i) 0

/-- The inverse `inv_KXX` that `set_covar_noise` forms from `KXX` in the matrix
mode `matrix_mode`. -/
def inv_KXX (D : krige_deps α) (matrix_mode n : Nat) (KXX : Nat → Nat → α) : Nat → Nat → α :=
  if matrix_mode = matrix_LU then
    D.LU_invert n (D.LU_decomp n KXX).1 (D.LU_decomp n KXX).2
  else D.cholesky_invert n (D.cholesky_decomp n KXX).2

/-- The data members of `interp_krige_optim` that `qual_fun` uses, on top of
those of `interp_krige`. -/
structure interp_krige_optim (α : Type) extends interp_krige α where
  len : α
  qual : α
  mode : Nat

/-- The constant `interp_krige_optim::mode_loo_cv`. -/
def mode_loo_cv : Nat := 1

/-- The constant `interp_krige_optim::mode_max_lml`. -/
def mode_max_lml : Nat := 2

/-- The covariance `exp(-pow((a-b)/len,2.0)/2.0)` that `qual_fun` writes out. -/
def qual_covar (D : krige_deps α) (len a b : α) : α :=
  D.exp (-(((a - b) / len) ^ 2) / 2)

/-- The loop `for(size_t k=0;k<size;k++)` of `qual_fun` in the mode
`mode_loo_cv`, from the index `k` on, with `todo` indices left.  The result is
the value returned, `success` and the object: either the return of `1.0e99`
from inside the loop, or the return of `qual` at the end of `qual_fun`.  Inside
the loop `size ≥ 1`, so `size-1` does not wrap. -/
def loo_cv_loop (D : krige_deps α) (noise_var : α) :
    Nat → Nat → interp_krige_optim α → α × Int × interp_krige_optim α
  | 0, _, s => (s.qual, 0, s)
  | todo + 1, k, s =>
    let size := s.sz
    let x2 := D.vector_copy_jackknife s.px k
    let y2 := D.vector_copy_jackknife s.py k
    let KXX := KXX_fill (fun irow icol => qual_covar D s.len (x2 irow) (x2 icol)) noise_var
    let ypred_of (Kinvf : Nat → α) : α :=
      (List.range (size - 1)).foldl
        (fun ypred i => ypred + qual_covar D s.len (s.px k) (x2 i) * Kinvf i) 0
    if s.matrix_mode = matrix_LU then
      match D.LU_decomp (size - 1) KXX with
      | (lu, p) =>
        if D.diagonal_has_zero (size - 1) lu = true then ((10 : α) ^ 99, 1, s)
        else
          let Kinvf := axpy_prod (size - 1) (D.LU_invert (size - 1) lu p) y2
          loo_cv_loop D noise_var todo (k + 1)
            { s with Kinvf := Kinvf, qual := s.qual + (s.py k - ypred_of Kinvf) ^ 2 }
    else
      match D.cholesky_decomp (size - 1) KXX with
      | (cret, ch) =>
        if cret ≠ 0 then ((10 : α) ^ 99, 2, s)
        else
          let Kinvf := axpy_prod (size - 1) (D.cholesky_invert (size - 1) ch) y2
          loo_cv_loop D noise_var todo (k + 1)
            { s with Kinvf := Kinvf, qual := s.qual + (s.py k - ypred_of Kinvf) ^ 2 }

/-- The method `interp_krige_optim::qual_fun`; the result is the value
returned, the value left in `success` and the object.  The length `x` is meant
to be non-zero. -/
def interp_krige_optim.qual_fun (D : krige_deps α) (s : interp_krige_optim α)
    (x noise_var : α) : α × Int × interp_krige_optim α :=
  let s0 := { s with len := x }
  if s.mode = mode_loo_cv then
    loo_cv_loop D noise_var s0.sz 0 { s0 with qual := 0 }
  else if s.mode = mode_max_lml then
    let size := s0.sz
    let KXX := KXX_fill (fun irow icol => qual_covar D x (s0.px irow) (s0.px icol)) noise_var
    match D.LU_decomp size KXX with
    | (lu, p) =>
      if D.diagonal_has_zero size lu = true then ((10 : α) ^ 99, 1, s0)
      else
        let inv := D.LU_invert size lu p
        let lndet := D.LU_lndet size lu
        let Kinvf := axpy_prod size inv s0.py
        let qual1 := (List.range size).foldl
          (fun qual i => qual + 1 / 2 * s0.py i * Kinvf i) s0.qual
        let qual2 := qual1 + 1 / 2 * lndet
        (qual2, 0, { s0 with Kinvf := Kinvf, qual := qual2 })
  else (s0.qual, 0, s0)

/-! ## Binary64 arithmetic -/

/-- A solver that reports success at its initial guess without calling the
residual. -/
def root_q : root ℚ :=
  { err_nonconv := true, solve := fun _ x _ => .ok (0, x) }

/-- Rational stand-ins for the outside functions and constants: `pi2 = 1`,
`limit = 40`, an antiparticle with the same masses and degeneracy and
sign-flipped `mu` and `nu`. -/
def deps_q : deps ℚ :=
  { exp := fun x => 1 + x + x ^ 2 / 2
    log := fun x => x - 1
    sqrt := fun x => (x + 1) / 2
    pi2 := 1
    limit := 40
    rbg := root_q
    boson_ctor := fun mass dof =>
      { g := dof, m := mass, ms := 0, mu := 0, nu := 0, n := 0, ed := 0, en := 0, pr := 0,
        inc_rest_mass := true, non_interacting := true }
    anti := fun b ax =>
      { ax with g := b.g, m := b.m, ms := b.ms, inc_rest_mass := b.inc_rest_mass,
                non_interacting := b.non_interacting, mu := -b.mu, nu := -b.nu } }

/-- An engine whose degenerate integrator always returns `1` and whose
non-degenerate integrator always returns `2`. -/
def engine_q : boson_rel ℚ :=
  { density_root := root_q
    nit := { integ := fun _ _ _ => .ok 2 }
    dit := { integ := fun _ _ _ => .ok 1 } }

/-- An interacting boson with `g = 2`, `m = 1`, `ms = 1` and effective chemical
potential `nu`, rest mass included: `psi = (nu-1)/temper`. -/
def boson_q (nu : ℚ) : boson ℚ :=
  { g := 2, m := 1, ms := 1, mu := nu, nu := nu, n := 0, ed := 0, en := 0, pr := 0,
    inc_rest_mass := true, non_interacting := false }

/-- An interacting boson with negative effective mass `ms = -1` and
`nu = -2`, so that `psi = -1` at `temper = 1`. -/
def boson_negms : boson ℚ :=
  { g := 2, m := 1, ms := -1, mu := 0, nu := -2, n := 0, ed := 0, en := 0, pr := 0,
    inc_rest_mass := true, non_interacting := false }

/-- An interacting boson with target density `n = 3` and initial guess
`nu = 1/2` for the inversion. -/
def boson_target : boson ℚ :=
  { g := 2, m := 1, ms := 1, mu := 1 / 2, nu := 1 / 2, n := 3, ed := 0, en := 0, pr := 0,
    inc_rest_mass := true, non_interacting := false }

/-- Rational stand-ins for what the closed-form fermion methods take from
outside: `pi = 3`, `pi2 = 9`. -/
def fermion_deps_q : fermion_deps ℚ :=
  { sqrt := fun x => (x + 1) / 2
    pow := fun x _ => x
    pi := 3
    pi2 := 9
    kf_from_density := fun f => { f with kf := 6 * 9 / f.g * f.n } }

/-- Rational stand-ins for what the finite-temperature fermion methods take
from outside; the bracketing solver reports failure and the classical reseed
leaves the particle as it is. -/
def fermion_ext_q : fermion_ext ℚ :=
  { gsl_sf_fermi_dirac_half := fun y => 1 + y ^ 2
    gsl_sf_fermi_dirac_3half := fun y => 1 + y ^ 2
    GSL_LOG_DBL_MIN := -708
    solve_bkt := fun _ blow _ _ => .ok (1, blow)
    classical_calc_density := fun f _ => f }

/-- A solver that reports failure (status `1`) and leaves the guess as it is. -/
def root_fail : root ℚ :=
  { err_nonconv := true, solve := fun _ x _ => .ok (1, x) }

/-- A solver that reports success at the root `x - 1`, away from its initial
guess `x`. -/
def root_shift : root ℚ :=
  { err_nonconv := true, solve := fun _ x _ => .ok (0, x - 1) }

/-- An interacting fermion with `g = 2`, `m = ms = 1`, `mu = nu = 3` and
density `n`, rest mass included. -/
def fermion_q (n : ℚ) : fermion ℚ :=
  { g := 2, m := 1, ms := 1, mu := 3, nu := 3, n := n, ed := 0, en := 0, pr := 0, kf := 0,
    inc_rest_mass := true, non_interacting := false }

/-- A non-interacting boson with `g = 2`, `m = 1`, `mu = 1/2` and target
density `n = 3`. -/
def boson_free : boson ℚ :=
  { g := 2, m := 1, ms := 1, mu := 1 / 2, nu := 1 / 2, n := 3, ed := 0, en := 0, pr := 0,
    inc_rest_mass := true, non_interacting := true }

/-- An integrator over `ℚ` for `inte_qagi_gsl`: its `qags` samples the
integrand at the midpoint of the interval. -/
def qagi_q : inte_qagi_gsl ℚ :=
  { tol_abs := 0
    tol_rel := 0
    qags := fun f lo hi _ _ => (0, (f ((lo + hi) / 2)).getD 0, 0) }

/-- A fermion engine whose solver reports success at its initial guess. -/
def fermion_engine_q : fermion_nonrel ℚ :=
  { density_root := root_q }

/-- A fermion engine whose solver always reports failure; the flag
`err_nonconv` is `true` on entry. -/
def fermion_engine_fail : fermion_nonrel ℚ :=
  { density_root := root_fail }

/-- The boson `boson_target` with the target density set to `n = 0`. -/
def boson_zero_density : boson ℚ :=
  { boson_target with n := 0 }

/-- A boson engine like `engine_q` whose solver is `root_shift`. -/
def engine_shift : boson_rel ℚ :=
  { engine_q with density_root := root_shift }

/-- The stand-ins `deps_q` with a `root_brent_gsl<>` that reports failure. -/
def deps_fail : deps ℚ :=
  { deps_q with rbg := root_fail }

/-- A boson engine like `engine_q` whose solver always reports failure; the
flag `err_nonconv` is `true` on entry. -/
def engine_fail : boson_rel ℚ :=
  { engine_q with density_root := root_fail }

/-- An interacting boson with `ms = 300`, `nu = 299`, rest mass included: at
`temper = 1`, `eta = 300`, `y = 299` and `psi = -1`. -/
def boson_heavy : boson ℚ :=
  { g := 2, m := 300, ms := 300, mu := 299, nu := 299, n := 0, ed := 0, en := 0, pr := 0,
    inc_rest_mass := true, non_interacting := false }

/-- An engine whose integrators return the value of the integrand at the
point `1`. -/
def engine_sample : boson_rel ℚ :=
  { density_root := root_q
    nit := { integ := fun f _ _ => f 1 }
    dit := { integ := fun f _ _ => f 1 } }

/-- An interacting boson with `m = ms = 1`, `nu = -1/2` and the rest mass
excluded or included according to `irm`. -/
def boson_flag (irm : Bool) : boson ℚ :=
  { g := 2, m := 1, ms := 1, mu := -(1 / 2), nu := -(1 / 2), n := 0, ed := 0, en := 0, pr := 0,
    inc_rest_mass := irm, non_interacting := false }

/-- An interacting boson with `m = ms = 1`, `nu = 0` (`psi = -1` at
`temper = 1`) and target density `n = 3`. -/
def boson_nondeg_target : boson ℚ :=
  { g := 2, m := 1, ms := 1, mu := 0, nu := 0, n := 3, ed := 0, en := 0, pr := 0,
    inc_rest_mass := true, non_interacting := false }

/-- Stand-ins like `fermion_ext_q` with a residual that changes sign: the
Fermi-Dirac stand-in is `9 + y`, and the bracketing solver reports success at
the midpoint of the bracket it is given. -/
def fermion_ext_lin : fermion_ext ℚ :=
  { gsl_sf_fermi_dirac_half := fun y => 9 + y
    gsl_sf_fermi_dirac_3half := fun y => 9 + y
    GSL_LOG_DBL_MIN := -708
    solve_bkt := fun _ blow bhigh _ => .ok (0, (blow + bhigh) / 2)
    classical_calc_density := fun f _ => f }

/-- An interacting fermion with `g = 2`, `m = ms = 1`, `nu = -2` and `n = 1`,
rest mass included: at `temper = 1` the initial guess of `nu_from_n` is `3`. -/
def fermion_guess3 : fermion ℚ :=
  { g := 2, m := 1, ms := 1, mu := -2, nu := -2, n := 1, ed := 0, en := 0, pr := 0, kf := 0,
    inc_rest_mass := true, non_interacting := false }

/-- A boson over the reals with `g = 2`, `m = ms = 1`, `mu = nu = 0`, rest mass
included: at `T = 1` it has `eta = 1`, `y = 0` and `psi = -1`. -/
def boson_real : boson ℝ :=
  { g := 2, m := 1, ms := 1, mu := 0, nu := 0, n := 0, ed := 0, en := 0, pr := 0,
    inc_rest_mass := true, non_interacting := false }

/-- The inverse of a 2 by 2 matrix by the adjugate; zero outside the 2 by 2
block. -/
def inv2 (M : Nat → Nat → ℚ) : Nat → Nat → ℚ :=
  fun i j =>
    let d := M 0 0 * M 1 1 - M 0 1 * M 1 0
    if i = 0 ∧ j = 0 then M 1 1 / d
    else if i = 0 ∧ j = 1 then -M 0 1 / d
    else if i = 1 ∧ j = 0 then -M 1 0 / d
    else if i = 1 ∧ j = 1 then M 0 0 / d
    else 0

/-- Stand-ins for the linear algebra, exact on 2 by 2 matrices: the
decompositions leave the matrix as it is, the test for a singular matrix is the
determinant, the inverse is `inv2`, and the logarithm of the determinant and
the exponential are the polynomials of `deps_q`. -/
def krige_deps_q : krige_deps ℚ :=
  { exp := fun t => 1 + t + t ^ 2 / 2
    LU_decomp := fun _ M => (M, fun i => i)
    diagonal_has_zero := fun _ M => decide (M 0 0 * M 1 1 - M 0 1 * M 1 0 = 0)
    LU_invert := fun _ M _ => inv2 M
    LU_lndet := fun _ M => M 0 0 * M 1 1 - M 0 1 * M 1 0 - 1
    cholesky_decomp := fun _ M => (0, M)
    cholesky_invert := fun _ M => inv2 M
    vector_copy_jackknife := fun v k i => if i < k then v i else v (i + 1) }

/-- The points `x = (0, 1)`. -/
def krige_x : Nat → ℚ := fun i => if i = 0 then 0 else 1

/-- The values `y = (3, 5)`. -/
def krige_y : Nat → ℚ := fun i => if i = 0 then 3 else 5

/-- The symmetric covariance function `1 + a*b`. -/
def krige_f : ℚ → ℚ → ℚ := fun a b => 1 + a * b

/-- An `interp_krige` object as its constructor leaves it (`min_size = 2`,
`matrix_mode = matrix_cholesky`), with the matrix mode `matrix_mode` then
chosen and zeros in the members that the constructor does not set. -/
def krige_new (matrix_mode : Nat) : interp_krige ℚ :=
  { min_size := 2, matrix_mode := matrix_mode, Kinvf := fun _ => 0, f := fun _ _ => 0,
    px := fun _ => 0, py := fun _ => 0, sz := 0 }

/-- An `interp_krige_optim` object in the mode `mode_max_lml` with the data
`x = (0, 1)`, `y = (1, 1)` and the member `qual` equal to `qual`. -/
def krige_lml (qual : ℚ) : interp_krige_optim ℚ :=
  { min_size := 2, matrix_mode := matrix_cholesky, Kinvf := fun _ => 0, f := fun _ _ => 0,
    px := krige_x, py := fun _ => 1, sz := 2, len := 0, qual := qual, mode := mode_max_lml }

theorem fdiv_of_ne {a b : α} (h : b ≠ 0) : fdiv a b = some (a / b) := by
  simp [fdiv, h]

theorem fdiv_zero (a : α) : fdiv a (0 : α) = none := by
  simp [fdiv]

theorem one_add_exp_ne_zero (x : ℝ) : 1 + Real.exp x ≠ 0 :=
  ne_of_gt (by positivity)

theorem exp_sub_one_ne_zero {x : ℝ} (hx : x ≠ 0) : Real.exp x - 1 ≠ 0 := by
  intro h
  exact hx (Real.exp_eq_one_iff x |>.mp (by linarith))

/-- C1: for `T ≠ 0` and `x = (E-mu)/T`, `fermi_function` returns exactly `0`
when `x > limit`, exactly `1` when `x < -limit` and not `x > limit`, and
`1/(1+exp(x))` otherwise. -/
theorem fermi_function_cases (E mu T limit : ℝ) (hT : T ≠ 0) :
    ((E - mu) / T > limit → fermi_function Real.exp E mu T limit = some 0) ∧
    (¬ (E - mu) / T > limit → (E - mu) / T < -limit →
      fermi_function Real.exp E mu T limit = some 1) ∧
    (¬ (E - mu) / T > limit → ¬ (E - mu) / T < -limit →
      fermi_function Real.exp E mu T limit
        = some (1 / (1 + Real.exp ((E - mu) / T)))) := by
  refine ⟨fun h => ?_, fun h1 h2 => ?_, fun h1 h2 => ?_⟩
  · simp [fermi_function, fdiv_of_ne hT, h]
  · simp [fermi_function, fdiv_of_ne hT, h1, h2]
  · simp [fermi_function, fdiv_of_ne hT, h1, h2, fdiv_of_ne (one_add_exp_ne_zero _)]

/-- Witness of C1: above the cut-off, `E-mu = 50`, `T = 1`, `limit = 40`. -/
theorem fermi_function_cases_witness :
    fermi_function Real.exp 50 0 1 40 = some 0 :=
  (fermi_function_cases 50 0 1 40 one_ne_zero).1 (by norm_num)

/-- C2: for `T ≠ 0` and `x = (E-mu)/T`, `bose_function` returns `0` when
`x > limit`; `-1` in the negative saturated branch (`x < -limit`, reached when
not `x > limit`); the truncated series in `x` when neither saturation applies
and `|x| < 1e-3`; and `1/(exp(x)-1)` in every remaining case. -/
theorem bose_function_cases (E mu T limit : ℝ) (hT : T ≠ 0) :
    ((E - mu) / T > limit → bose_function Real.exp E mu T limit = some 0) ∧
    (¬ (E - mu) / T > limit → (E - mu) / T < -limit →
      bose_function Real.exp E mu T limit = some (-1)) ∧
    (¬ (E - mu) / T > limit → ¬ (E - mu) / T < -limit →
      |(E - mu) / T| < 1 / 1000 →
      bose_function Real.exp E mu T limit
        = (fdiv 1 ((E - mu) / T)).map (bose_series ((E - mu) / T))) ∧
    (¬ (E - mu) / T > limit → ¬ (E - mu) / T < -limit →
      ¬ |(E - mu) / T| < 1 / 1000 →
      bose_function Real.exp E mu T limit
        = some (1 / (Real.exp ((E - mu) / T) - 1))) := by
  refine ⟨fun h => ?_, fun h1 h2 => ?_, fun h1 h2 h3 => ?_, fun h1 h2 h3 => ?_⟩
  · simp [bose_function, fdiv_of_ne hT, h]
  · simp [bose_function, fdiv_of_ne hT, h1, h2]
  · simp only [bose_function, fdiv_of_ne hT, Option.some_bind, h1, h2, h3, if_false, if_true]
  · have hx : (E - mu) / T ≠ 0 := by
      intro h0
      apply h3
      rw [h0]
      norm_num
    simp only [bose_function, fdiv_of_ne hT, Option.some_bind, h1, h2, h3, if_false,
      fdiv_of_ne (exp_sub_one_ne_zero hx)]

/-- Witness of C2: the direct formula at `E-mu = 2`, `T = 1`, `limit = 40`. -/
theorem bose_function_cases_witness :
    bose_function Real.exp 2 0 1 40 = some (1 / (Real.exp ((2 - 0) / 1) - 1)) :=
  (bose_function_cases 2 0 1 40 one_ne_zero).2.2.2 (by norm_num) (by norm_num)
    (by rw [abs_of_pos] <;> norm_num)

/-- The exact-arithmetic part of C3: over the reals, for `T > 0` and
`limit > 0`, `fermi_function` returns a finite number for all `E`, `mu`;
`bose_function` returns a finite number whenever `E ≠ mu`, and at `E = mu` it
divides by zero. -/
theorem occupation_functions_finite_exact (E mu T limit : ℝ) (hT : 0 < T) (hl : 0 < limit) :
    (∃ v, fermi_function Real.exp E mu T limit = some v) ∧
    (E ≠ mu → ∃ v, bose_function Real.exp E mu T limit = some v) ∧
    (E = mu → bose_function Real.exp E mu T limit = none) := by
  have hT0 : T ≠ 0 := ne_of_gt hT
  refine ⟨?_, fun hne => ?_, fun he => ?_⟩
  · simp only [fermi_function, fdiv_of_ne hT0, Option.some_bind,
      fdiv_of_ne (one_add_exp_ne_zero _)]
    split_ifs <;> exact ⟨_, rfl⟩
  · have hx : (E - mu) / T ≠ 0 := div_ne_zero (sub_ne_zero.mpr hne) hT0
    simp only [bose_function, fdiv_of_ne hT0, Option.some_bind, fdiv_of_ne hx,
      fdiv_of_ne (exp_sub_one_ne_zero hx), Option.map_some']
    split_ifs <;> exact ⟨_, rfl⟩
  · subst he
    have h1 : ¬ (0 : ℝ) > limit := not_lt.mpr hl.le
    have h2 : ¬ (0 : ℝ) < -limit := by linarith
    simp [bose_function, fdiv, hT0, h1, h2]

/-- Witness of the exact-arithmetic part of C3 at `E = 1`, `mu = 0`, `T = 1`,
`limit = 40`. -/
theorem occupation_functions_finite_exact_witness :
    (∃ v, fermi_function Real.exp 1 0 1 40 = some v) ∧
    (∃ v, bose_function Real.exp 1 0 1 40 = some v) :=
  ⟨(occupation_functions_finite_exact 1 0 1 40 (by norm_num) (by norm_num)).1,
   (occupation_functions_finite_exact 1 0 1 40 (by norm_num) (by norm_num)).2.1
     (by norm_num)⟩

theorem exp_sub_one_bound {x : ℝ} (hx : |x| ≤ 1) :
    |Real.exp x - 1 - (x + x ^ 2 / 2 + x ^ 3 / 6)| ≤ |x| ^ 4 * (5 / 96) := by
  have h := Real.exp_bound hx (show 0 < 4 by norm_num)
  simp only [Finset.sum_range_succ, Finset.sum_range_zero, Nat.factorial] at h
  norm_num at h
  have e : Real.exp x - 1 - (x + x ^ 2 / 2 + x ^ 3 / 6)
      = Real.exp x - (1 + x + x ^ 2 / 2 + x ^ 3 / 6) := by ring
  rw [e]
  exact h

theorem rel_err_of_mul {s d ε : ℝ} (hd : d ≠ 0) (h : |s * d - 1| < ε) :
    |s - 1 / d| < ε * |1 / d| := by
  have e : s - 1 / d = (s * d - 1) * (1 / d) := by field_simp
  rw [e, abs_mul]
  exact mul_lt_mul_of_pos_right h (abs_pos.mpr (one_div_ne_zero hd))

theorem bose_function_series_branch (exp : α → α) (x limit : α)
    (h1 : ¬ x > limit) (h2 : ¬ x < -limit) (h3 : |x| < 1 / 1000) (hx : x ≠ 0) :
    bose_function exp x 0 1 limit = some (bose_series x (1 / x)) := by
  have e : (x - 0) / 1 = x := by simp
  simp only [bose_function, fdiv_of_ne (one_ne_zero : (1 : α) ≠ 0), Option.some_bind, e,
    h1, h2, h3, if_false, if_true, fdiv_of_ne hx, Option.map_some']

theorem bose_series_close_pos :
    |bose_series (1 / 10000 : ℝ) (1 / (1 / 10000)) * (Real.exp (1 / 10000) - 1) - 1|
      < 1 / 10000000000 := by
  have hb := exp_sub_one_bound (x := (1 / 10000 : ℝ)) (by rw [abs_le]; constructor <;> norm_num)
  have ha : |(1 / 10000 : ℝ)| = 1 / 10000 := abs_of_pos (by norm_num)
  rw [ha, abs_le] at hb
  obtain ⟨hb1, hb2⟩ := hb
  rw [abs_lt]
  norm_num [bose_series] at hb1 hb2 ⊢
  constructor <;> linarith

theorem bose_series_close_neg :
    |bose_series (-(1 / 10000) : ℝ) (1 / (-(1 / 10000))) * (Real.exp (-(1 / 10000)) - 1) - 1|
      < 1 / 10000000000 := by
  have hb := exp_sub_one_bound (x := (-(1 / 10000) : ℝ))
    (by rw [abs_le]; constructor <;> norm_num)
  have ha : |(-(1 / 10000) : ℝ)| = 1 / 10000 := by
    rw [abs_neg]
    exact abs_of_pos (by norm_num)
  rw [ha, abs_le] at hb
  obtain ⟨hb1, hb2⟩ := hb
  rw [abs_lt]
  norm_num [bose_series] at hb1 hb2 ⊢
  constructor <;> linarith

/-- C4: at `x = 1e-4` and at `x = -1e-4` (`E-mu = ±1e-4`, `T = 1`,
`limit ≥ 1`) `bose_function` returns the value `s` of its series branch, and
`s` differs from the direct formula `1/(exp(x)-1)` by less than `1e-10` times
the magnitude of the direct formula, over exact real arithmetic. -/
theorem bose_function_series_accuracy (limit : ℝ) (hl : 1 ≤ limit) :
    (∃ s, bose_function Real.exp (1 / 10000) 0 1 limit = some s ∧
      s = bose_series (1 / 10000) (1 / (1 / 10000)) ∧
      |s - 1 / (Real.exp (1 / 10000) - 1)|
        < 1 / 10000000000 * |1 / (Real.exp (1 / 10000) - 1)|) ∧
    (∃ s, bose_function Real.exp (-(1 / 10000)) 0 1 limit = some s ∧
      s = bose_series (-(1 / 10000)) (1 / (-(1 / 10000))) ∧
      |s - 1 / (Real.exp (-(1 / 10000)) - 1)|
        < 1 / 10000000000 * |1 / (Real.exp (-(1 / 10000)) - 1)|) := by
  constructor
  · refine ⟨_, bose_function_series_branch Real.exp (1 / 10000) limit ?_ ?_ ?_ ?_, rfl, ?_⟩
    · rw [gt_iff_lt, not_lt]; linarith
    · rw [not_lt]; linarith
    · rw [abs_of_pos] <;> norm_num
    · norm_num
    · exact rel_err_of_mul (exp_sub_one_ne_zero (by norm_num)) bose_series_close_pos
  · refine ⟨_, bose_function_series_branch Real.exp (-(1 / 10000)) limit ?_ ?_ ?_ ?_, rfl, ?_⟩
    · rw [gt_iff_lt, not_lt]; linarith
    · rw [not_lt]; linarith
    · rw [abs_of_neg] <;> norm_num
    · norm_num
    · exact rel_err_of_mul (exp_sub_one_ne_zero (by norm_num)) bose_series_close_neg

/-- Witness of C4 at `limit = 40`. -/
theorem bose_function_series_accuracy_witness :
    ∃ s, bose_function Real.exp (1 / 10000) 0 1 40 = some s ∧
      s = bose_series (1 / 10000) (1 / (1 / 10000)) ∧
      |s - 1 / (Real.exp (1 / 10000) - 1)|
        < 1 / 10000000000 * |1 / (Real.exp (1 / 10000) - 1)| :=
  (bose_function_series_accuracy 40 (by norm_num)).1

/-- C5: for `limit ≥ 0` and `T ≠ 0`, `fermi_function` returns `0` for
`x = (E-mu)/T` above `limit` and `1` for `x` below `-limit`, and its formula
value at `x = limit` is within `exp(-limit)` of `0`, its formula value at
`x = -limit` within `exp(-limit)` of `1`. -/
theorem fermi_function_jump (E mu T limit : ℝ) (hT : T ≠ 0) (hl : 0 ≤ limit) :
    (limit < (E - mu) / T → fermi_function Real.exp E mu T limit = some 0) ∧
    ((E - mu) / T = limit →
      ∃ v, fermi_function Real.exp E mu T limit = some v ∧
        v = 1 / (1 + Real.exp limit) ∧ |v - 0| ≤ Real.exp (-limit)) ∧
    ((E - mu) / T < -limit → fermi_function Real.exp E mu T limit = some 1) ∧
    ((E - mu) / T = -limit →
      ∃ v, fermi_function Real.exp E mu T limit = some v ∧
        v = 1 / (1 + Real.exp (-limit)) ∧ |v - 1| ≤ Real.exp (-limit)) := by
  refine ⟨fun h => ?_, fun h => ?_, fun h => ?_, fun h => ?_⟩
  · simp [fermi_function, fdiv_of_ne hT, h]
  · have h1 : ¬ limit > limit := lt_irrefl _
    have h2 : ¬ limit < -limit := by linarith
    refine ⟨1 / (1 + Real.exp limit), ?_, rfl, ?_⟩
    · simp only [fermi_function, fdiv_of_ne hT, Option.some_bind, h, h1, h2, if_false,
        fdiv_of_ne (one_add_exp_ne_zero _)]
    · have hp : 0 < Real.exp limit := Real.exp_pos _
      rw [sub_zero, abs_of_pos (by positivity), Real.exp_neg, ← one_div]
      exact one_div_le_one_div_of_le hp (by linarith)
  · have h1 : ¬ (E - mu) / T > limit := by rw [gt_iff_lt, not_lt]; linarith
    simp [fermi_function, fdiv_of_ne hT, h1, h]
  · have h1 : ¬ -limit > limit := by rw [gt_iff_lt, not_lt]; linarith
    have h2 : ¬ -limit < -limit := lt_irrefl _
    refine ⟨1 / (1 + Real.exp (-limit)), ?_, rfl, ?_⟩
    · simp only [fermi_function, fdiv_of_ne hT, Option.some_bind, h, h1, h2, if_false,
        fdiv_of_ne (one_add_exp_ne_zero _)]
    · have hp : 0 < Real.exp (-limit) := Real.exp_pos _
      have e : 1 / (1 + Real.exp (-limit)) - 1
          = -(Real.exp (-limit) / (1 + Real.exp (-limit))) := by
        field_simp
      rw [e, abs_neg, abs_of_pos (by positivity)]
      rw [div_le_iff₀ (by positivity)]
      nlinarith

/-- Witness of C5 at `limit = 40`, `T = 1`, `mu = 0`, `E = 40`. -/
theorem fermi_function_jump_witness :
    ∃ v, fermi_function Real.exp 40 0 1 40 = some v ∧
      v = 1 / (1 + Real.exp 40) ∧ |v - 0| ≤ Real.exp (-40) :=
  (fermi_function_jump 40 0 1 40 one_ne_zero (by norm_num)).2.1 (by norm_num)

/-! ## Theorems: the relativistic boson engine -/

theorem non_interacting_override_idem (b : boson α) :
    non_interacting_override (non_interacting_override b) = non_interacting_override b := by
  unfold non_interacting_override
  split_ifs with h1 <;> simp_all

theorem non_interacting_override_outputs (b : boson α) :
    (non_interacting_override b).n = b.n ∧ (non_interacting_override b).ed = b.ed ∧
    (non_interacting_override b).en = b.en ∧ (non_interacting_override b).pr = b.pr := by
  unfold non_interacting_override
  split_ifs <;> simp

theorem deg_of_lt {psi : α} (h : psi < -(1 / 2)) : deg_of psi = false := by
  unfold deg_of
  rw [if_pos h]

theorem deg_of_ge {psi : α} (h : -(1 / 2) ≤ psi) : deg_of psi = true := by
  unfold deg_of
  rw [if_neg (not_lt.mpr h)]

theorem calc_mu_finish_ok {temper : α} {r : call (boson α)} {b1 : boson α}
    (h : calc_mu_finish temper r = .ok b1) :
    ∃ b0, r = .ok b0 ∧ b1 = { b0 with pr := -b0.ed + temper * b0.en + b0.mu * b0.n } := by
  cases r with
  | ok b0 =>
    simp only [calc_mu_finish, call.ok.injEq] at h
    exact ⟨b0, rfl, h.symm⟩
  | stopped e b0 => simp [calc_mu_finish] at h

theorem calc_mu_of_valid (D : deps α) (br : boson_rel α) (b : boson α) (temper : α)
    (hT : 0 < temper) (hpsi : psi_of (non_interacting_override b) temper ≤ 0) :
    calc_mu D br b temper =
      calc_mu_finish temper
        (if deg_of (psi_of (non_interacting_override b) temper) = true then
          if upper_limit_arg (non_interacting_override b) temper > 0 then
            calc_mu_deg D br (non_interacting_override b) temper
              (D.sqrt (upper_limit_arg (non_interacting_override b) temper))
          else .stopped (.raised .exc_efailed) (non_interacting_override b)
        else calc_mu_nondeg D br (non_interacting_override b) temper) := by
  simp only [calc_mu, not_le.mpr hT, not_lt.mpr hpsi, gt_iff_lt, if_false]

theorem calc_mu_override (D : deps α) (br : boson_rel α) (b : boson α) (temper : α)
    (hT : 0 < temper) :
    calc_mu D br (non_interacting_override b) temper = calc_mu D br b temper := by
  simp only [calc_mu, not_le.mpr hT, non_interacting_override_idem, if_false]

theorem calc_mu_ok_temper {D : deps α} {br : boson_rel α} {b b1 : boson α} {temper : α}
    (h : calc_mu D br b temper = .ok b1) : 0 < temper := by
  by_contra hT
  simp [calc_mu, not_lt.mp hT] at h

/-- C6, counterexample: with `temper = 1` and `psi = -1 < -0.5` the engine
calls the non-degenerate integrator (which returns `2` here, the degenerate
one returns `1`), and with `psi = -1/4` in `[-0.5, 0]` it calls the degenerate
integrator. -/
theorem calc_mu_degenerate_counterexample :
    psi_of (boson_q 0) 1 = -1 ∧
    calc_mu deps_q engine_q (boson_q 0) 1
      = .ok { boson_q 0 with n := 2, ed := 2, en := 2, pr := 0 } ∧
    psi_of (boson_q (3 / 4)) 1 = -(1 / 4) ∧
    calc_mu deps_q engine_q (boson_q (3 / 4)) 1
      = .ok { boson_q (3 / 4) with n := 1, ed := 1, en := 1, pr := 3 / 4 } := by
  refine ⟨?_, ?_, ?_, ?_⟩
  · norm_num [psi_of, boson_q]
  · norm_num [calc_mu, calc_mu_finish, calc_mu_nondeg, psi_of, deg_of,
      non_interacting_override, boson_q, engine_q, deps_q]
  · norm_num [psi_of, boson_q]
  · norm_num [calc_mu, calc_mu_finish, calc_mu_deg, psi_of, deg_of, non_interacting_override,
      boson_q, engine_q, deps_q, upper_limit_arg]

/-- C6, amended: for `temper > 0` and `psi ≤ 0`, `calc_mu` runs its
non-degenerate block (`density_fun`, `energy_fun`, `entropy_fun` with `nit`)
when `psi < -0.5`, and its degenerate block (the `deg_*` integrands over
`[0, sqrt(arg)]` with `dit`) when `-0.5 ≤ psi` and `arg > 0`; `solve_fun`
selects its density integral by the same test on `psi`. -/
theorem boson_branch_selection (D : deps α) (br : boson_rel α) (b : boson α)
    (temper x : α) (hT : 0 < temper)
    (hpsi : psi_of (non_interacting_override b) temper ≤ 0) :
    (psi_of (non_interacting_override b) temper < -(1 / 2) →
      calc_mu D br b temper
        = calc_mu_finish temper (calc_mu_nondeg D br (non_interacting_override b) temper)) ∧
    (-(1 / 2) ≤ psi_of (non_interacting_override b) temper →
      0 < upper_limit_arg (non_interacting_override b) temper →
      calc_mu D br b temper
        = calc_mu_finish temper
            (calc_mu_deg D br (non_interacting_override b) temper
              (D.sqrt (upper_limit_arg (non_interacting_override b) temper)))) ∧
    (psi_of b temper < -(1 / 2) →
      solve_fun D br x b temper = solve_fun_finish b (solve_fun_nondeg D br b temper)) ∧
    (-(1 / 2) ≤ psi_of b temper →
      solve_fun D br x b temper = solve_fun_finish b (solve_fun_deg D br b temper)) := by
  refine ⟨fun h => ?_, fun h harg => ?_, fun h => ?_, fun h => ?_⟩
  · rw [calc_mu_of_valid D br b temper hT hpsi, deg_of_lt h]
    simp
  · rw [calc_mu_of_valid D br b temper hT hpsi, deg_of_ge h, if_pos rfl, if_pos harg]
  · simp only [solve_fun, deg_of_lt h]
    simp
  · simp only [solve_fun, deg_of_ge h, if_true]

/-- Witness of C6 (amended): `psi = -1` at `temper = 1`, the non-degenerate
block. -/
theorem boson_branch_selection_witness :
    calc_mu deps_q engine_q (boson_q 0) 1
      = calc_mu_finish 1
          (calc_mu_nondeg deps_q engine_q (non_interacting_override (boson_q 0)) 1) :=
  (boson_branch_selection deps_q engine_q (boson_q 0) 1 0 (by norm_num)
    (by norm_num [psi_of, boson_q, non_interacting_override])).1
    (by norm_num [psi_of, boson_q, non_interacting_override])

/-- C7: `calc_mu` raises `exc_einval` whenever `temper ≤ 0`, and whenever
`temper > 0` and `psi > 0` (`psi` computed after the non-interacting
override).  The outcome is the same for every engine `br`, so no integrator
result enters it, and the particle is left with its fields `n`, `ed`, `en`,
`pr` as they were on entry. -/
theorem calc_mu_invalid_input (D : deps α) (br : boson_rel α) (b : boson α) (temper : α) :
    (temper ≤ 0 → calc_mu D br b temper = .stopped (.raised .exc_einval) b) ∧
    (0 < temper → psi_of (non_interacting_override b) temper > 0 →
      calc_mu D br b temper
        = .stopped (.raised .exc_einval) (non_interacting_override b) ∧
      (non_interacting_override b).n = b.n ∧ (non_interacting_override b).ed = b.ed ∧
      (non_interacting_override b).en = b.en ∧ (non_interacting_override b).pr = b.pr) := by
  refine ⟨fun h => ?_, fun hT hpsi => ⟨?_, non_interacting_override_outputs b⟩⟩
  · simp only [calc_mu, if_pos h]
  · simp only [calc_mu, if_neg (not_le.mpr hT), if_pos hpsi]

/-- Witness of C7: `temper = 0`, and `temper = 1` with `nu = 2 > ms = 1`
(`psi = 1`). -/
theorem calc_mu_invalid_input_witness :
    calc_mu deps_q engine_q (boson_q 0) 0 = .stopped (.raised .exc_einval) (boson_q 0) ∧
    calc_mu deps_q engine_q (boson_q 2) 1
      = .stopped (.raised .exc_einval) (non_interacting_override (boson_q 2)) :=
  ⟨(calc_mu_invalid_input deps_q engine_q (boson_q 0) 0).1 (le_refl 0),
   ((calc_mu_invalid_input deps_q engine_q (boson_q 2) 1).2 (by norm_num)
      (by norm_num [psi_of, boson_q, non_interacting_override])).1⟩

/-- C8, the code at the failing input: with effective mass `ms = -1 < 0`
(`nu = -2`, `temper = 1`, interacting, so no override) `calc_mu` raises
nothing and returns with the output fields filled in. -/
theorem calc_mu_negative_mass_returns :
    boson_negms.ms < 0 ∧
    calc_mu deps_q engine_q boson_negms 1
      = .ok { boson_negms with n := 2, ed := 2, en := 2, pr := 0 } := by
  refine ⟨by norm_num [boson_negms], ?_⟩
  norm_num [calc_mu, calc_mu_finish, calc_mu_nondeg, psi_of, deg_of,
    non_interacting_override, boson_negms, engine_q, deps_q]

theorem calc_density_ok_pr {D : deps α} {br br1 : boson_rel α} {b b1 : boson α} {temper : α}
    (h : calc_density D br b temper = .ok (br1, b1)) :
    b1.pr = -b1.ed + temper * b1.en + b1.mu * b1.n := by
  unfold calc_density at h
  split_ifs at h
  simp only at h
  split at h
  · exact absurd h (by simp)
  · split at h
    · exact absurd h (by simp)
    · split at h
      · exact absurd h (by simp)
      · simp only [call.ok.injEq, Prod.mk.injEq] at h
        rw [← h.2]

/-- C9: whenever `calc_mu` or `calc_density` returns normally, the pressure of
the returned particle is `-ed + temper*en + mu*n` over its final `ed`, `en`,
`mu` and `n`, whatever the integrators and the solver return, in either
branch and for either value of `inc_rest_mass`. -/
theorem pressure_identity (D : deps α) (br : boson_rel α) (b : boson α) (temper : α) :
    (∀ b1, calc_mu D br b temper = .ok b1 →
      b1.pr = -b1.ed + temper * b1.en + b1.mu * b1.n) ∧
    (∀ br1 b1, calc_density D br b temper = .ok (br1, b1) →
      b1.pr = -b1.ed + temper * b1.en + b1.mu * b1.n) := by
  refine ⟨fun b1 h => ?_, fun br1 b1 h => calc_density_ok_pr h⟩
  by_cases hT : temper ≤ 0
  · simp [calc_mu, hT] at h
  · by_cases hp : psi_of (non_interacting_override b) temper > 0
    · simp [calc_mu, hT, hp] at h
    · simp only [calc_mu, if_neg hT, if_neg hp] at h
      obtain ⟨b0, -, rfl⟩ := calc_mu_finish_ok h
      rfl

theorem calc_mu_q_nondeg :
    calc_mu deps_q engine_q (boson_q 0) 1
      = .ok { boson_q 0 with n := 2, ed := 2, en := 2, pr := 0 } := by
  norm_num [calc_mu, calc_mu_finish, calc_mu_nondeg, psi_of, deg_of,
    non_interacting_override, boson_q, engine_q, deps_q]

theorem calc_density_q :
    calc_density deps_q engine_q boson_target 1
      = .ok (engine_q, { boson_target with ed := 1, en := 1, pr := 3 / 2 }) := by
  norm_num [calc_density, nu_from_n, set_err_nonconv, non_interacting_override,
    boson_target, engine_q, deps_q, root_q]

/-- Witness of C9: a normal return of `calc_mu` (non-degenerate block) and a
normal return of `calc_density`, with the identity on the returned values. -/
theorem pressure_identity_witness :
    (∃ b1, calc_mu deps_q engine_q (boson_q 0) 1 = .ok b1 ∧
      b1.pr = -b1.ed + 1 * b1.en + b1.mu * b1.n) ∧
    (∃ br1 b1, calc_density deps_q engine_q boson_target 1 = .ok (br1, b1) ∧
      b1.pr = -b1.ed + 1 * b1.en + b1.mu * b1.n) :=
  ⟨⟨_, calc_mu_q_nondeg,
      (pressure_identity deps_q engine_q (boson_q 0) 1).1 _ calc_mu_q_nondeg⟩,
   ⟨_, _, calc_density_q,
      (pressure_identity deps_q engine_q boson_target 1).2 _ _ calc_density_q⟩⟩

/-- C10: `pair_mu` returns normally exactly when `calc_mu` returns `bp` for
the particle and `ba` for the antiparticle object built from `bp`
(`boson antip(b.ms,b.g); b.anti(antip);`), and the returned particle is `bp`
with `n = bp.n - ba.n`, `pr = bp.pr + ba.pr`, `ed = bp.ed + ba.ed` and
`en = bp.en + ba.en`. -/
theorem pair_mu_combines (D : deps α) (br : boson_rel α) (b b1 : boson α) (temper : α) :
    pair_mu D br b temper = .ok b1 ↔
      ∃ bp ba, calc_mu D br b temper = .ok bp ∧
        calc_mu D br (antip_of D bp) temper = .ok ba ∧
        b1 = { bp with n := bp.n - ba.n, pr := bp.pr + ba.pr,
                       ed := bp.ed + ba.ed, en := bp.en + ba.en } := by
  by_cases hT : 0 < temper
  · simp only [pair_mu, calc_mu_override D br b temper hT]
    constructor
    · intro h
      split at h
      · exact absurd h (by simp)
      · rename_i bp hp
        split at h
        · exact absurd h (by simp)
        · rename_i ba ha
          simp only [call.ok.injEq] at h
          exact ⟨bp, ba, hp, ha, h.symm⟩
    · rintro ⟨bp, ba, hp, ha, rfl⟩
      simp only [hp, ha]
  · constructor
    · intro h
      simp only [pair_mu] at h
      split at h
      · exact absurd h (by simp)
      · rename_i bp hp
        exact absurd (calc_mu_ok_temper hp) hT
    · rintro ⟨bp, ba, hp, -, -⟩
      exact absurd (calc_mu_ok_temper hp) hT

theorem calc_mu_q_anti :
    calc_mu deps_q engine_q
        (antip_of deps_q { boson_q (-(1 / 2)) with n := 2, ed := 2, en := 2, pr := -1 }) 1
      = .ok { boson_q (1 / 2) with n := 1, ed := 1, en := 1, pr := 1 / 2 } := by
  norm_num [calc_mu, calc_mu_finish, calc_mu_deg, psi_of, deg_of, non_interacting_override,
    boson_q, engine_q, deps_q, upper_limit_arg, antip_of]

theorem calc_mu_q_part :
    calc_mu deps_q engine_q (boson_q (-(1 / 2))) 1
      = .ok { boson_q (-(1 / 2)) with n := 2, ed := 2, en := 2, pr := -1 } := by
  norm_num [calc_mu, calc_mu_finish, calc_mu_nondeg, psi_of, deg_of,
    non_interacting_override, boson_q, engine_q, deps_q]

/-- Witness of C10: `nu = -1/2`, `temper = 1`; the particle takes the
non-degenerate block (`n = 2`), the antiparticle the degenerate one
(`n = 1`). -/
theorem pair_mu_combines_witness :
    pair_mu deps_q engine_q (boson_q (-(1 / 2))) 1
      = .ok { boson_q (-(1 / 2)) with n := 2 - 1, ed := 2 + 1, en := 2 + 1,
                                      pr := -1 + 1 / 2 } :=
  (pair_mu_combines deps_q engine_q (boson_q (-(1 / 2))) _ 1).mpr
    ⟨_, _, calc_mu_q_part, calc_mu_q_anti, rfl⟩

/-! ## Theorems: the integrator `inte_qagi_gsl` -/

/-- C20: for `0 < t ≤ 1`, `transform(t,func)` is `(func(x)+func(-x))/t^2` with
`x = (1-t)/t`; `integ_err(func,a,b,...)` hands this transformed integrand to
`qags` with the limits `0` and `1`, so its status, result and error estimate
are the same for every pair `a`, `b`. -/
theorem qagi_folded_transform (I : inte_qagi_gsl α) (func : α → α) :
    (∀ t, 0 < t → t ≤ 1 →
      inte_qagi_gsl.transform t func
        = some ((func ((1 - t) / t) + func (-((1 - t) / t))) / t ^ 2)) ∧
    (∀ a b, inte_qagi_gsl.integ_err I func a b
      = I.qags (fun t => inte_qagi_gsl.transform t func) 0 1 I.tol_abs I.tol_rel) ∧
    (∀ a b a1 b1, inte_qagi_gsl.integ_err I func a b
      = inte_qagi_gsl.integ_err I func a1 b1) := by
  refine ⟨fun t ht _ => ?_, fun a b => rfl, fun a b a1 b1 => rfl⟩
  have h0 : t ≠ 0 := ne_of_gt ht
  simp only [inte_qagi_gsl.transform, fdiv_of_ne h0, Option.some_bind]
  rw [div_div, ← pow_two]

/-- Witness of C20: `func(x) = x^2 + 1` at `t = 1/2` (`x = 1`), and two calls
of `integ_err` with different limits. -/
theorem qagi_folded_transform_witness :
    inte_qagi_gsl.transform (1 / 2 : ℚ) (fun x => x ^ 2 + 1) = some 16 ∧
    inte_qagi_gsl.integ_err qagi_q (fun x => x ^ 2 + 1) 0 0
      = inte_qagi_gsl.integ_err qagi_q (fun x => x ^ 2 + 1) (-5) 7 := by
  refine ⟨?_, (qagi_folded_transform qagi_q (fun x => x ^ 2 + 1)).2.2 0 0 (-5) 7⟩
  rw [(qagi_folded_transform qagi_q (fun x => x ^ 2 + 1)).1 (1 / 2) (by norm_num)
    (by norm_num)]
  norm_num

/-! ## Theorems: the non-relativistic fermion engine -/

theorem fermion_calc_density_zero (D : fermion_deps α) (X : fermion_ext α)
    (fr : fermion_nonrel α) (f : fermion α) (hm : 0 ≤ f.m)
    (hms : f.non_interacting = true ∨ 0 ≤ f.ms) :
    fermion_nonrel.calc_density D X fr f 0
      = .returned 0 (fr, fermion_nonrel.calc_density_zerot D f) := by
  have h1 : ¬ (f.m < 0 ∨ (f.non_interacting = false ∧ f.ms < 0)) := by
    rintro (h | ⟨h, h2⟩)
    · exact absurd h (not_lt.mpr hm)
    · rcases hms with h3 | h3
      · rw [h3] at h
        exact Bool.noConfusion h
      · exact absurd h2 (not_lt.mpr h3)
  simp only [fermion_nonrel.calc_density, if_neg h1, lt_irrefl, if_false, if_true]

/-- C14: `calc_mu(f,0)` returns with `f` in the state `calc_mu_zerot(f)`
produces, and, when `m ≥ 0` and (`non_interacting` or `ms ≥ 0`),
`calc_density(f,0)` returns `0` with `f` in the state `calc_density_zerot(f)`
produces and the engine untouched; the outcome is the same for every choice of
the Fermi-Dirac functions and of the solvers, so none of them is used. -/
theorem zero_temperature_dispatch (D : fermion_deps α) (X : fermion_ext α)
    (fr : fermion_nonrel α) (f : fermion α) :
    fermion_nonrel.calc_mu D X f 0 = .ok (fermion_nonrel.calc_mu_zerot D f) ∧
    (0 ≤ f.m → (f.non_interacting = true ∨ 0 ≤ f.ms) →
      fermion_nonrel.calc_density D X fr f 0
        = .returned 0 (fr, fermion_nonrel.calc_density_zerot D f)) := by
  refine ⟨?_, fermion_calc_density_zero D X fr f⟩
  simp only [fermion_nonrel.calc_mu, lt_irrefl, if_false, if_true]

/-- Witness of C14: `calc_density` at zero temperature on a fermion with
`m = ms = 1`. -/
theorem zero_temperature_dispatch_witness :
    fermion_nonrel.calc_density fermion_deps_q fermion_ext_q fermion_engine_q (fermion_q 1) 0
      = .returned 0
          (fermion_engine_q, fermion_nonrel.calc_density_zerot fermion_deps_q (fermion_q 1)) :=
  (zero_temperature_dispatch fermion_deps_q fermion_ext_q fermion_engine_q (fermion_q 1)).2
    (by norm_num [fermion_q]) (Or.inr (by norm_num [fermion_q]))

/-- C15: after `calc_mu_zerot(f)`, with `ms > 0` and
`nu - m*[inc_rest_mass] ≥ 0` (values after the non-interacting override):
`kf = sqrt(2*ms*(nu - m*[inc_rest_mass]))`, `n = g*kf^3/(6*pi2)`,
`ed = g*kf^5/(20*pi2*ms) + n*m*[inc_rest_mass]`, `pr = -ed + n*nu` and
`en = 0`; after `calc_density_zerot(f)`, `en = 0` and `pr = -ed + n*nu`. -/
theorem zerot_closed_form (D : fermion_deps α) (f : fermion α)
    (hms : 0 < (fermion_nonrel.calc_mu_zerot D f).ms)
    (hnu : 0 ≤ (fermion_nonrel.calc_mu_zerot D f).nu
      - (fermion_nonrel.calc_mu_zerot D f).m * rest_mass_flag f) :
    (fermion_nonrel.calc_mu_zerot D f).kf
      = D.sqrt (2 * (fermion_nonrel.calc_mu_zerot D f).ms
          * ((fermion_nonrel.calc_mu_zerot D f).nu
            - (fermion_nonrel.calc_mu_zerot D f).m * rest_mass_flag f)) ∧
    (fermion_nonrel.calc_mu_zerot D f).n
      = (fermion_nonrel.calc_mu_zerot D f).g * (fermion_nonrel.calc_mu_zerot D f).kf ^ 3
          / (6 * D.pi2) ∧
    (fermion_nonrel.calc_mu_zerot D f).ed
      = (fermion_nonrel.calc_mu_zerot D f).g * (fermion_nonrel.calc_mu_zerot D f).kf ^ 5
          / (20 * D.pi2 * (fermion_nonrel.calc_mu_zerot D f).ms)
        + (fermion_nonrel.calc_mu_zerot D f).n * (fermion_nonrel.calc_mu_zerot D f).m
          * rest_mass_flag f ∧
    (fermion_nonrel.calc_mu_zerot D f).pr
      = -(fermion_nonrel.calc_mu_zerot D f).ed
        + (fermion_nonrel.calc_mu_zerot D f).n * (fermion_nonrel.calc_mu_zerot D f).nu ∧
    (fermion_nonrel.calc_mu_zerot D f).en = 0 ∧
    (fermion_nonrel.calc_density_zerot D f).en = 0 ∧
    (fermion_nonrel.calc_density_zerot D f).pr
      = -(fermion_nonrel.calc_density_zerot D f).ed
        + (fermion_nonrel.calc_density_zerot D f).n
          * (fermion_nonrel.calc_density_zerot D f).nu := by
  have hirm : (fermion_override f).inc_rest_mass = f.inc_rest_mass := by
    unfold fermion_override
    split_ifs <;> rfl
  refine ⟨?_, ?_, ?_, ?_, ?_, ?_, ?_⟩
  · simp only [fermion_nonrel.calc_mu_zerot, rest_mass_flag, hirm]
    split_ifs <;> simp
  · simp only [fermion_nonrel.calc_mu_zerot]
    rw [div_div]
    ring
  · simp only [fermion_nonrel.calc_mu_zerot, rest_mass_flag, hirm]
    split_ifs
    · simp only [mul_one, div_div]
    · simp only [mul_zero, add_zero, div_div]
  · simp only [fermion_nonrel.calc_mu_zerot]
  · simp only [fermion_nonrel.calc_mu_zerot]
  · simp only [fermion_nonrel.calc_density_zerot]
    split_ifs <;> rfl
  · simp only [fermion_nonrel.calc_density_zerot]
    split_ifs <;> rfl

/-- Witness of C15: `g = 2`, `m = ms = 1`, `nu = 3`, rest mass included. -/
theorem zerot_closed_form_witness :
    (fermion_nonrel.calc_mu_zerot fermion_deps_q (fermion_q 1)).pr
      = -(fermion_nonrel.calc_mu_zerot fermion_deps_q (fermion_q 1)).ed
        + (fermion_nonrel.calc_mu_zerot fermion_deps_q (fermion_q 1)).n
          * (fermion_nonrel.calc_mu_zerot fermion_deps_q (fermion_q 1)).nu ∧
    (fermion_nonrel.calc_mu_zerot fermion_deps_q (fermion_q 1)).en = 0 :=
  ⟨(zerot_closed_form fermion_deps_q (fermion_q 1)
      (by norm_num [fermion_nonrel.calc_mu_zerot, fermion_override, fermion_q])
      (by norm_num [fermion_nonrel.calc_mu_zerot, fermion_override, fermion_q,
        rest_mass_flag])).2.2.2.1,
   (zerot_closed_form fermion_deps_q (fermion_q 1)
      (by norm_num [fermion_nonrel.calc_mu_zerot, fermion_override, fermion_q])
      (by norm_num [fermion_nonrel.calc_mu_zerot, fermion_override, fermion_q,
        rest_mass_flag])).2.2.2.2.1⟩

theorem fermion_finish_identities (D : fermion_deps α) (f : fermion α) (temper ed0 : α)
    (hT : temper ≠ 0) :
    (fermion_nonrel.finish D f temper ed0).en
      = (5 / 3 * ((fermion_nonrel.finish D f temper ed0).ed
            - (fermion_nonrel.finish D f temper ed0).n
              * (fermion_nonrel.finish D f temper ed0).m
              * rest_mass_flag (fermion_nonrel.finish D f temper ed0))
          - ((fermion_nonrel.finish D f temper ed0).nu
              - (fermion_nonrel.finish D f temper ed0).m
                * rest_mass_flag (fermion_nonrel.finish D f temper ed0)) / temper
            * temper * (fermion_nonrel.finish D f temper ed0).n) / temper ∧
    (fermion_nonrel.finish D f temper ed0).pr
      = 2 / 3 * ((fermion_nonrel.finish D f temper ed0).ed
          - (fermion_nonrel.finish D f temper ed0).n
            * (fermion_nonrel.finish D f temper ed0).m
            * rest_mass_flag (fermion_nonrel.finish D f temper ed0)) := by
  unfold fermion_nonrel.finish rest_mass_flag
  cases h : f.inc_rest_mass
  · simp only [h, Bool.false_eq_true, if_false, if_true]
    constructor
    · rw [div_mul_cancel₀ _ hT]
      ring
    · ring
  · simp only [h, if_true]
    constructor
    · rw [div_mul_cancel₀ _ hT]
      ring
    · ring

theorem fermion_calc_mu_pos (D : fermion_deps α) (X : fermion_ext α) (f : fermion α)
    (temper : α) (hT : 0 < temper) (hms : 0 ≤ (fermion_override f).ms) :
    fermion_nonrel.calc_mu D X f temper
      = .ok (fermion_nonrel.finish D
          { fermion_override f with
            n := X.gsl_sf_fermi_dirac_half
                  (if (fermion_override f).inc_rest_mass = true
                    then ((fermion_override f).nu - (fermion_override f).m) / temper
                    else (fermion_override f).nu / temper) * D.sqrt D.pi / 2
                * ((fermion_override f).g
                    * D.pow (2 * (fermion_override f).ms * temper) (3 / 2) / 4 / D.pi2) }
          temper
          (X.gsl_sf_fermi_dirac_3half
              (if (fermion_override f).inc_rest_mass = true
                then ((fermion_override f).nu - (fermion_override f).m) / temper
                else (fermion_override f).nu / temper) * (3 / 4) * D.sqrt D.pi)) := by
  simp only [fermion_nonrel.calc_mu, if_neg (not_lt.mpr hT.le), if_neg (ne_of_gt hT),
    if_neg (not_lt.mpr hms), if_neg (not_le.mpr hT)]

/-- C16: for `temper > 0`, after `calc_mu` or `calc_density` returns, with
`flag = [inc_rest_mass]` and `y = (nu - m*flag)/temper`:
`en = (5/3*(ed - n*m*flag) - y*temper*n)/temper` and
`pr = (2/3)*(ed - n*m*flag)`, over the final values of the fields. -/
theorem finite_temperature_identities (D : fermion_deps α) (X : fermion_ext α)
    (fr : fermion_nonrel α) (f : fermion α) (temper : α) (hT : 0 < temper) :
    (∀ r, fermion_nonrel.calc_mu D X f temper = .ok r →
      r.en = (5 / 3 * (r.ed - r.n * r.m * rest_mass_flag r)
              - (r.nu - r.m * rest_mass_flag r) / temper * temper * r.n) / temper ∧
      r.pr = 2 / 3 * (r.ed - r.n * r.m * rest_mass_flag r)) ∧
    (∀ ret fr1 r, fermion_nonrel.calc_density D X fr f temper = .returned ret (fr1, r) →
      r.en = (5 / 3 * (r.ed - r.n * r.m * rest_mass_flag r)
              - (r.nu - r.m * rest_mass_flag r) / temper * temper * r.n) / temper ∧
      r.pr = 2 / 3 * (r.ed - r.n * r.m * rest_mass_flag r)) := by
  have hT0 : temper ≠ 0 := ne_of_gt hT
  refine ⟨fun r h => ?_, fun ret fr1 r h => ?_⟩
  · by_cases hms : (fermion_override f).ms < 0
    · simp [fermion_nonrel.calc_mu, not_lt.mpr hT.le, hT0, hms] at h
    · rw [fermion_calc_mu_pos D X f temper hT (not_lt.mp hms)] at h
      simp only [call.ok.injEq] at h
      rw [← h]
      exact fermion_finish_identities D _ temper _ hT0
  · unfold fermion_nonrel.calc_density at h
    split_ifs at h
    split at h
    · exact absurd h (by simp)
    · simp only [icall.returned.injEq, Prod.mk.injEq] at h
      rw [← h.2.2]
      exact fermion_finish_identities D _ temper _ hT0

/-- Witness of C16: `calc_mu` at `temper = 1` on a fermion with `nu = 3`,
`m = ms = 1`, rest mass included. -/
theorem finite_temperature_identities_witness :
    ∃ r, fermion_nonrel.calc_mu fermion_deps_q fermion_ext_q (fermion_q 1) 1 = .ok r ∧
      r.pr = 2 / 3 * (r.ed - r.n * r.m * rest_mass_flag r) :=
  ⟨_, fermion_calc_mu_pos fermion_deps_q fermion_ext_q (fermion_q 1) 1 (by norm_num)
      (by norm_num [fermion_override, fermion_q]),
    ((finite_temperature_identities fermion_deps_q fermion_ext_q fermion_engine_q
        (fermion_q 1) 1 (by norm_num)).1 _
      (fermion_calc_mu_pos fermion_deps_q fermion_ext_q (fermion_q 1) 1 (by norm_num)
        (by norm_num [fermion_override, fermion_q]))).2⟩

/-- C13, counterexample: at `temper = 0`, with density `n = 0` and masses
`m = ms = 1`, `calc_density` runs `calc_density_zerot` and returns status `0`
without raising. -/
theorem fermion_calc_density_counterexample :
    (fermion_q 0).n ≤ 0 ∧ 0 ≤ (fermion_q 0).m ∧ 0 ≤ (fermion_q 0).ms ∧
    fermion_nonrel.calc_density fermion_deps_q fermion_ext_q fermion_engine_q (fermion_q 0) 0
      = .returned 0
          (fermion_engine_q, fermion_nonrel.calc_density_zerot fermion_deps_q (fermion_q 0)) := by
  refine ⟨by norm_num [fermion_q], by norm_num [fermion_q], by norm_num [fermion_q], ?_⟩
  exact fermion_calc_density_zero _ _ _ _ (by norm_num [fermion_q])
    (Or.inr (by norm_num [fermion_q]))

/-- C13, amended: `calc_density` raises `exc_einval`, leaving the particle and
the engine as they were, whenever `f.n ≤ 0` and `temper > 0`; at `temper = 0`,
with non-negative masses, it returns status `0` after `calc_density_zerot`,
whatever the density. -/
theorem fermion_calc_density_nonpositive (D : fermion_deps α) (X : fermion_ext α)
    (fr : fermion_nonrel α) (f : fermion α) (temper : α) :
    (0 < temper → f.n ≤ 0 →
      fermion_nonrel.calc_density D X fr f temper
        = .stopped (.raised .exc_einval) (fr, f)) ∧
    (temper = 0 → 0 ≤ f.m → (f.non_interacting = true ∨ 0 ≤ f.ms) →
      fermion_nonrel.calc_density D X fr f temper
        = .returned 0 (fr, fermion_nonrel.calc_density_zerot D f)) := by
  refine ⟨fun hT hn => ?_, fun hT hm hms => ?_⟩
  · simp only [fermion_nonrel.calc_density, if_neg (not_lt.mpr hT.le), if_neg (ne_of_gt hT),
      if_pos hn]
    split_ifs <;> rfl
  · subst hT
    exact fermion_calc_density_zero D X fr f hm hms

/-- Witness of C13 (amended): `temper = 1`, `n = 0`. -/
theorem fermion_calc_density_nonpositive_witness :
    fermion_nonrel.calc_density fermion_deps_q fermion_ext_q fermion_engine_q (fermion_q 0) 1
      = .stopped (.raised .exc_einval) (fermion_engine_q, fermion_q 0) :=
  (fermion_calc_density_nonpositive fermion_deps_q fermion_ext_q fermion_engine_q
    (fermion_q 0) 1).1 (by norm_num) (by norm_num [fermion_q])

theorem fermion_finish_frame (D : fermion_deps α) (f : fermion α) (temper ed0 : α) :
    (fermion_nonrel.finish D f temper ed0).nu = f.nu ∧
    (fermion_nonrel.finish D f temper ed0).n = f.n ∧
    (fermion_nonrel.finish D f temper ed0).g = f.g ∧
    (fermion_nonrel.finish D f temper ed0).ms = f.ms ∧
    (fermion_nonrel.finish D f temper ed0).m = f.m ∧
    (fermion_nonrel.finish D f temper ed0).mu = f.mu ∧
    (fermion_nonrel.finish D f temper ed0).inc_rest_mass = f.inc_rest_mass ∧
    (fermion_nonrel.finish D f temper ed0).non_interacting = f.non_interacting := by
  unfold fermion_nonrel.finish
  split_ifs <;> exact ⟨rfl, rfl, rfl, rfl, rfl, rfl, rfl, rfl⟩

theorem fermion_override_flag (f : fermion α) :
    (fermion_override f).inc_rest_mass = f.inc_rest_mass := by
  unfold fermion_override
  split_ifs <;> rfl

theorem fermion_y_flag (f : fermion α) (temper : α) :
    (if (fermion_override f).inc_rest_mass = true
      then ((fermion_override f).nu - (fermion_override f).m) / temper
      else (fermion_override f).nu / temper)
      = ((fermion_override f).nu - (fermion_override f).m * rest_mass_flag f) / temper := by
  rw [fermion_override_flag]
  unfold rest_mass_flag
  split_ifs <;> simp

theorem fermion_set_nu_self (r : fermion α) (v : α) (h : v = r.nu) :
    { r with nu := v } = r := by
  subst h
  cases r
  rfl

/-- C17: for `temper > 0`, `ms > 0`, `g > 0` and
`y = (nu - m*[inc_rest_mass])/temper ≥ GSL_LOG_DBL_MIN` (values after the
non-interacting override), and outside functions with `fermi_dirac_half(y)`,
`sqrt(pi)`, `pow(2*ms*temper,1.5)` and `pi2` positive: `calc_mu` returns a
particle `r` with `solve_fun(-y, r.n/r.g, r.ms*temper) = 0`, and the closing
statements of `nu_from_n` at the root `x = -y` leave `r.nu` as it is. -/
theorem fermion_round_trip (D : fermion_deps α) (X : fermion_ext α) (fr : fermion_nonrel α)
    (enc : Bool) (f : fermion α) (temper : α) (hT : 0 < temper)
    (hms : 0 < (fermion_override f).ms) (hg : 0 < (fermion_override f).g)
    (hy : X.GSL_LOG_DBL_MIN ≤ ((fermion_override f).nu
      - (fermion_override f).m * rest_mass_flag f) / temper)
    (hFD : 0 < X.gsl_sf_fermi_dirac_half (((fermion_override f).nu
      - (fermion_override f).m * rest_mass_flag f) / temper))
    (hsqrt : 0 < D.sqrt D.pi)
    (hpow : 0 < D.pow (2 * (fermion_override f).ms * temper) (3 / 2))
    (hpi2 : 0 < D.pi2) :
    ∃ r, fermion_nonrel.calc_mu D X f temper = .ok r ∧
      r.nu = (fermion_override f).nu ∧
      fermion_nonrel.solve_fun D X
          (-(((fermion_override f).nu - (fermion_override f).m * rest_mass_flag f) / temper))
          (r.n / r.g) (r.ms * temper) = some 0 ∧
      fermion_nonrel.nu_from_n_finish fr enc r temper
          (-(((fermion_override f).nu - (fermion_override f).m * rest_mass_flag f) / temper))
        = .ok (fermion_nonrel.set_err_nonconv fr enc, r) := by
  have hT0 : temper ≠ 0 := ne_of_gt hT
  obtain ⟨hnu, hn, hgf, hmsf, hmf, -, hirm, -⟩ :=
    fermion_finish_frame D
      { fermion_override f with
        n := X.gsl_sf_fermi_dirac_half
              (if (fermion_override f).inc_rest_mass = true
                then ((fermion_override f).nu - (fermion_override f).m) / temper
                else (fermion_override f).nu / temper) * D.sqrt D.pi / 2
            * ((fermion_override f).g
                * D.pow (2 * (fermion_override f).ms * temper) (3 / 2) / 4 / D.pi2) }
      temper
      (X.gsl_sf_fermi_dirac_3half
          (if (fermion_override f).inc_rest_mass = true
            then ((fermion_override f).nu - (fermion_override f).m) / temper
            else (fermion_override f).nu / temper) * (3 / 4) * D.sqrt D.pi)
  refine ⟨_, fermion_calc_mu_pos D X f temper hT hms.le, hnu, ?_, ?_⟩
  · rw [hn, hgf, hmsf]
    simp only [fermion_y_flag]
    have hne : X.gsl_sf_fermi_dirac_half
          (((fermion_override f).nu - (fermion_override f).m * rest_mass_flag f) / temper)
          * D.sqrt D.pi / 2
          * ((fermion_override f).g
              * D.pow (2 * (fermion_override f).ms * temper) (3 / 2) / 4 / D.pi2)
          / (fermion_override f).g ≠ 0 := by
      have : 0 < X.gsl_sf_fermi_dirac_half
          (((fermion_override f).nu - (fermion_override f).m * rest_mass_flag f) / temper)
          * D.sqrt D.pi / 2
          * ((fermion_override f).g
              * D.pow (2 * (fermion_override f).ms * temper) (3 / 2) / 4 / D.pi2)
          / (fermion_override f).g := by positivity
      exact ne_of_gt this
    simp only [fermion_nonrel.solve_fun, neg_neg, if_neg (not_lt.mpr hy), fdiv_of_ne hne,
      Option.map_some', ← mul_assoc]
    congr 1
    have hg0 : (fermion_override f).g ≠ 0 := ne_of_gt hg
    have hp0 : D.pi2 ≠ 0 := ne_of_gt hpi2
    have hF := ne_of_gt hFD
    have hs := ne_of_gt hsqrt
    have hP := ne_of_gt hpow
    rw [sub_eq_zero]
    field_simp
    ring
  · unfold fermion_nonrel.nu_from_n_finish
    rw [fermion_set_nu_self]
    rw [hirm, hnu, hmf]
    simp only [fermion_override_flag]
    unfold rest_mass_flag
    split_ifs
    · rw [neg_neg, mul_one, div_mul_cancel₀ _ hT0]
      ring
    · rw [neg_neg, mul_zero, sub_zero, div_mul_cancel₀ _ hT0]

/-- Witness of C17: `nu = 3`, `m = ms = 1`, `g = 2`, `temper = 1`, so `y = 2`. -/
theorem fermion_round_trip_witness :
    ∃ r, fermion_nonrel.calc_mu fermion_deps_q fermion_ext_q (fermion_q 1) 1 = .ok r ∧
      r.nu = (fermion_override (fermion_q 1)).nu :=
  (fermion_round_trip fermion_deps_q fermion_ext_q fermion_engine_q true (fermion_q 1) 1
    (by norm_num) (by norm_num [fermion_override, fermion_q])
    (by norm_num [fermion_override, fermion_q])
    (by norm_num [fermion_override, fermion_q, fermion_ext_q, rest_mass_flag])
    (by norm_num [fermion_override, fermion_q, fermion_ext_q, rest_mass_flag])
    (by norm_num [fermion_deps_q])
    (by norm_num [fermion_override, fermion_q, fermion_deps_q])
    (by norm_num [fermion_deps_q])).imp fun r h => ⟨h.1, h.2.1⟩

/-! ## Theorems: missing tests and updates -/

/-- C11, the code at the failing input: at `u = 0` with `nu = ms = 1`,
`temper = 1` (so `eta = y`) the raw expressions of `density_fun` and
`energy_fun` divide by `exp(eta+u) - exp(y) = 0`, and both functions call
`exit(-1)`; `entropy_fun` and `deg_density_fun` return `0` at the same
point. -/
theorem density_fun_exits :
    density_fun deps_q 0 (boson_q 1) 1 = .error (.exited (-1)) ∧
    energy_fun deps_q 0 (boson_q 1) 1 = .error (.exited (-1)) ∧
    entropy_fun deps_q 0 (boson_q 1) 1 = .ok 0 ∧
    deg_density_fun deps_q 0 (boson_q 1) 1 = .ok 0 := by
  refine ⟨?_, ?_, ?_, ?_⟩
  · norm_num [density_fun, nondeg_y, fdiv, fsqrt, boson_q, deps_q]
  · norm_num [energy_fun, nondeg_y, fdiv, fsqrt, boson_q, deps_q]
  · norm_num [entropy_fun, nondeg_y, fdiv, fsqrt, flog, boson_q, deps_q]
  · norm_num [deg_density_fun, bose_function, gsl_hypot, fdiv, boson_q, deps_q]

/-- C12, the code at the failing input: with target density `n = 0` and
`temper = 1`, `boson_rel::calc_density` raises nothing, calls the solver and
returns. -/
theorem calc_density_zero_density_returns :
    boson_zero_density.n ≤ 0 ∧
    calc_density deps_q engine_q boson_zero_density 1
      = .ok (engine_q, { boson_zero_density with ed := 1, en := 1, pr := 0 }) := by
  refine ⟨by norm_num [boson_zero_density], ?_⟩
  norm_num [calc_density, nu_from_n, set_err_nonconv, non_interacting_override,
    boson_zero_density, boson_target, engine_q, deps_q, root_q]

/-- C19, the code at the failing input: on a non-interacting boson with
`mu = 1/2`, `boson_rel::calc_density` with a solver that returns the root
`nu/temper - 1` returns with `nu = -1/2` and `mu = 1/2` still. -/
theorem calc_density_leaves_mu :
    boson_free.non_interacting = true ∧
    calc_density deps_q engine_shift boson_free 1
      = .ok (engine_shift, { boson_free with nu := -(1 / 2), ed := 1, en := 1, pr := 3 / 2 }) ∧
    (-(1 / 2) : ℚ) ≠ boson_free.mu := by
  refine ⟨rfl, ?_, by norm_num [boson_free]⟩
  norm_num [calc_density, nu_from_n, set_err_nonconv, non_interacting_override,
    boson_free, engine_shift, engine_q, deps_q, root_shift]

/-- C18, the code at the failing input: `fermion_nonrel::nu_from_n` entered
with `err_nonconv = true` and solvers that report failure raises the
solver-failed error with the solver's status, and leaves `err_nonconv = false`:
the statement that restores the flag comes after the raise.  The boson
`nu_from_n` in the same situation raises with the flag back at `true`. -/
theorem fermion_nu_from_n_flag_lost :
    fermion_engine_fail.density_root.err_nonconv = true ∧
    fermion_nonrel.nu_from_n fermion_deps_q fermion_ext_q fermion_engine_fail (fermion_q 1) 1
      = .stopped (.raised (.exc_other 1))
          (fermion_nonrel.set_err_nonconv fermion_engine_fail false, fermion_q 1) ∧
    (fermion_nonrel.set_err_nonconv fermion_engine_fail false).density_root.err_nonconv
      = false ∧
    engine_fail.density_root.err_nonconv = true ∧
    nu_from_n deps_fail engine_fail boson_target 1
      = .stopped (.raised .exc_efailed) (engine_fail, boson_target) := by
  refine ⟨rfl, ?_, rfl, rfl, ?_⟩
  swap
  · norm_num [nu_from_n, set_err_nonconv, engine_fail, engine_q, deps_fail, deps_q, root_fail,
      boson_target]
  norm_num [fermion_nonrel.nu_from_n, fermion_nonrel.nu_from_n_retry, fermion_nonrel.guess,
    fermion_nonrel.solve_fun, fermion_nonrel.solve_fun_ieee, xdiv, xsub_fin, xmul,
    xdouble.pos, xdouble.neg, fermion_nonrel.set_err_nonconv, bracket_search, prod_pos,
    sign_change, fdiv, fermion_q, fermion_engine_fail, root_fail, fermion_ext_q,
    fermion_deps_q]

/-! ## Theorems: guards, residual and rest-mass flag of the boson engine -/

/-- C21, the code at the failing input: with `eta = 300`, `y = 299`, `u = 1`
(`ms = 300`, `nu = 299`, `temper = 1`) the guard `y-u>200 && eta-u>200` holds,
then `eta+u+y>100` holds, and `density_fun` and `energy_fun` return exactly
`0`, for every `exp` and `sqrt`; the expression
`(eta+u)*sqrt(u^2+2*eta*u)/(exp(eta+u-y)-1)` is not zero there. -/
theorem nondeg_guard_returns_zero (D : deps ℚ) :
    density_fun D 1 boson_heavy 1 = .ok 0 ∧
    energy_fun D 1 boson_heavy 1 = .ok 0 ∧
    (300 + 1) * Real.sqrt (1 ^ 2 + 2 * 300 * 1) / (Real.exp (300 + 1 - 299) - 1) ≠ 0 := by
  refine ⟨?_, ?_, ?_⟩
  · norm_num [density_fun, nondeg_y, fdiv, boson_heavy]
  · norm_num [energy_fun, nondeg_y, fdiv, boson_heavy]
  · have h1 : Real.exp (300 + 1 - 299) - 1 ≠ 0 := exp_sub_one_ne_zero (by norm_num)
    have h2 : Real.sqrt (1 ^ 2 + 2 * 300 * 1) ≠ 0 := by
      rw [Real.sqrt_ne_zero']
      norm_num
    exact div_ne_zero (mul_ne_zero (by norm_num) h2) h1

/-- C22, the code at the failing input: `solve_fun(x,b,T)` does not read `x`.
With integrators that sample their integrand, `b.nu = 1/2`, `b.n = 3` and
`T = 1` the residual is `-7/9` for every trial value `x`, while the residual
for the chemical potential `nu = x*T` at `x = 0` is `-2/3`. -/
theorem solve_fun_ignores_trial_value :
    (∀ x, solve_fun deps_q engine_sample x boson_target 1 = .ok (some (-(7 / 9)))) ∧
    solve_fun deps_q engine_sample 0 { boson_target with nu := 0 * 1 } 1
      = .ok (some (-(2 / 3))) := by
  refine ⟨fun x => ?_, ?_⟩
  · norm_num [solve_fun, solve_fun_finish, solve_fun_deg, psi_of, deg_of, deg_density_fun,
      bose_function, gsl_hypot, fdiv, boson_target, engine_sample, deps_q]
  · norm_num [solve_fun, solve_fun_finish, solve_fun_nondeg, psi_of, deg_of, density_fun,
      nondeg_y, fsqrt, fdiv, boson_target, engine_sample, deps_q]

/-- C24, the code at the failing input: with the rest mass excluded
(`m = ms = 1`, `nu = -1/2`, `T = 1`) the degenerate integrands pass
`(hypot(0,ms) - nu)/T = 3/2` to `bose_function` at `k = 0`, while the
non-degenerate integrands use `eta+u-y = 1/2` at `u = 0` and `calc_mu` has
`-psi = 1/2`; with the rest mass included all three are `3/2`. -/
theorem deg_integrands_ignore_flag :
    deg_bose_arg deps_q 0 (boson_flag false) 1 = some (3 / 2) ∧
    nondeg_arg 0 (boson_flag false) 1 = some (1 / 2) ∧
    -psi_of (boson_flag false) 1 = 1 / 2 ∧
    deg_bose_arg deps_q 0 (boson_flag true) 1 = some (3 / 2) ∧
    nondeg_arg 0 (boson_flag true) 1 = some (3 / 2) ∧
    -psi_of (boson_flag true) 1 = 3 / 2 := by
  refine ⟨?_, ?_, ?_, ?_, ?_, ?_⟩
  · norm_num [deg_bose_arg, gsl_hypot, fdiv, boson_flag, deps_q]
  · norm_num [nondeg_arg, nondeg_y, fdiv, boson_flag]
  · norm_num [psi_of, boson_flag]
  · norm_num [deg_bose_arg, gsl_hypot, fdiv, boson_flag, deps_q]
  · norm_num [nondeg_arg, nondeg_y, fdiv, boson_flag]
  · norm_num [psi_of, boson_flag]

/-- C26, the code at the failing input: with `psi = -1` (`nu = 0`, `ms = 1`,
`temper = 1`), a degenerate integrator that returns `1` and a non-degenerate
one that returns `2`, `calc_density` returns with `nu = 0`, `ed = 1`, `en = 1`
(the degenerate integrals), while `calc_mu` at that `nu` gives `ed = 2`,
`en = 2` (the non-degenerate ones). -/
theorem calc_density_always_degenerate :
    psi_of boson_nondeg_target 1 = -1 ∧
    calc_density deps_q engine_q boson_nondeg_target 1
      = .ok (engine_q, { boson_nondeg_target with ed := 1, en := 1, pr := 0 }) ∧
    calc_mu deps_q engine_q { boson_nondeg_target with ed := 1, en := 1, pr := 0 } 1
      = .ok { boson_nondeg_target with n := 2, ed := 2, en := 2, pr := 0 } := by
  refine ⟨?_, ?_, ?_⟩
  · norm_num [psi_of, boson_nondeg_target]
  · norm_num [calc_density, nu_from_n, set_err_nonconv, non_interacting_override,
      boson_nondeg_target, engine_q, deps_q, root_q]
  · norm_num [calc_mu, calc_mu_finish, calc_mu_nondeg, psi_of, deg_of,
      non_interacting_override, boson_nondeg_target, engine_q, deps_q]

theorem upper_limit_arg_pos (b : boson α) (temper : α) (hT : 0 < temper) (hms : 0 ≤ b.ms)
    (h1 : -(1 / 2) ≤ psi_of b temper) : 0 < upper_limit_arg b temper := by
  unfold psi_of at h1
  unfold upper_limit_arg
  split_ifs at h1 ⊢
  · rw [le_div_iff₀ hT] at h1
    have hA : 0 < 20 * temper + b.nu - b.ms := by linarith
    have hB : 0 < 20 * temper + b.nu + b.ms := by linarith
    have := mul_pos hA hB
    nlinarith
  · rw [le_div_iff₀ hT] at h1
    have hA : 0 < 20 * temper + b.nu + b.m - b.ms := by linarith
    have hB : 0 < 20 * temper + b.nu + b.m + b.ms := by linarith
    have := mul_pos hA hB
    nlinarith

/-- The exact-arithmetic part of C28: over the reals, for `temper > 0`,
`ms ≥ 0` and `-0.5 ≤ psi ≤ 0` (values after the non-interacting override, either value of
`inc_rest_mass`) the quantity `arg = (20*temper + nu [+ m])^2 - ms^2` is
positive, its real square root is positive, and `calc_mu` runs the degenerate
integrals instead of raising the zero-density error. -/
theorem degenerate_upper_limit_positive_exact (D : deps ℝ) (br : boson_rel ℝ) (b : boson ℝ)
    (temper : ℝ) (hT : 0 < temper) (hms : 0 ≤ (non_interacting_override b).ms)
    (h1 : -(1 / 2) ≤ psi_of (non_interacting_override b) temper)
    (h2 : psi_of (non_interacting_override b) temper ≤ 0) :
    0 < upper_limit_arg (non_interacting_override b) temper ∧
    0 < Real.sqrt (upper_limit_arg (non_interacting_override b) temper) ∧
    calc_mu D br b temper
      = calc_mu_finish temper
          (calc_mu_deg D br (non_interacting_override b) temper
            (D.sqrt (upper_limit_arg (non_interacting_override b) temper))) := by
  have harg := upper_limit_arg_pos (non_interacting_override b) temper hT hms h1
  refine ⟨harg, Real.sqrt_pos.mpr harg, ?_⟩
  rw [calc_mu_of_valid D br b temper hT h2, deg_of_ge h1, if_pos rfl, if_pos harg]

/-- Witness of the exact-arithmetic part of C28: `ms = 1`, `nu = 3/4`,
`temper = 1`, so `psi = -1/4` and `arg = (20 + 3/4)^2 - 1`. -/
theorem degenerate_upper_limit_positive_exact_witness :
    0 < upper_limit_arg (non_interacting_override
      ({ g := 2, m := 1, ms := 1, mu := 3 / 4, nu := 3 / 4, n := 0, ed := 0, en := 0, pr := 0,
         inc_rest_mass := true, non_interacting := false } : boson ℝ)) 1 :=
  (degenerate_upper_limit_positive_exact (deps_of Real.exp Real.log Real.sqrt (Real.pi ^ 2) 40)
    { density_root := { err_nonconv := true, solve := fun _ x _ => .ok (0, x) }
      nit := { integ := fun _ _ _ => .ok 2 }
      dit := { integ := fun _ _ _ => .ok 1 } }
    { g := 2, m := 1, ms := 1, mu := 3 / 4, nu := 3 / 4, n := 0, ed := 0, en := 0, pr := 0,
      inc_rest_mass := true, non_interacting := false } 1 (by norm_num)
    (by norm_num [non_interacting_override])
    (by norm_num [non_interacting_override, psi_of])
    (by norm_num [non_interacting_override, psi_of])).1

theorem fermion_finish_grand_potential (D : fermion_deps α) (f : fermion α) (temper ed0 : α)
    (hT : temper ≠ 0) :
    (fermion_nonrel.finish D f temper ed0).pr
      = -(fermion_nonrel.finish D f temper ed0).ed
        + temper * (fermion_nonrel.finish D f temper ed0).en
        + (fermion_nonrel.finish D f temper ed0).nu
          * (fermion_nonrel.finish D f temper ed0).n := by
  unfold fermion_nonrel.finish
  cases h : f.inc_rest_mass
  · simp only [h, Bool.false_eq_true, if_false]
    rw [mul_div_cancel₀ _ hT]
    ring
  · simp only [h, if_true]
    rw [mul_div_cancel₀ _ hT]
    ring

theorem zerot_pressure_energy (D : fermion_deps α) (f : fermion α)
    (hsqrt : ∀ x, 0 ≤ x → D.sqrt x * D.sqrt x = x)
    (hms : 0 < (fermion_override f).ms)
    (hnu : 0 ≤ (fermion_override f).nu - (fermion_override f).m * rest_mass_flag f) :
    (fermion_nonrel.calc_mu_zerot D f).pr
      = 2 / 3 * ((fermion_nonrel.calc_mu_zerot D f).ed
          - (fermion_nonrel.calc_mu_zerot D f).n * (fermion_nonrel.calc_mu_zerot D f).m
            * rest_mass_flag f) := by
  have hk := hsqrt (2 * (fermion_override f).ms
      * ((fermion_override f).nu - (fermion_override f).m * rest_mass_flag f))
    (mul_nonneg (by linarith) hnu)
  have hm1 : (fermion_override f).ms * (fermion_override f).ms⁻¹ = 1 :=
    mul_inv_cancel₀ (ne_of_gt hms)
  have hirm := fermion_override_flag f
  unfold rest_mass_flag at hk ⊢
  simp only [fermion_nonrel.calc_mu_zerot, hirm]
  cases h : f.inc_rest_mass
  · simp only [h, Bool.false_eq_true, if_false, mul_zero, sub_zero, div_eq_mul_inv] at hk ⊢
    linear_combination
      (-(5 / 3) * (fermion_override f).g * D.sqrt (2 * (fermion_override f).ms
          * (fermion_override f).nu) ^ 3 * 20⁻¹ * D.pi2⁻¹ * (fermion_override f).ms⁻¹) * hk
      + (-(D.sqrt (2 * (fermion_override f).ms * (fermion_override f).nu) ^ 3
          * (fermion_override f).g * 6⁻¹ * D.pi2⁻¹ * (fermion_override f).nu)) * hm1
  · simp only [h, if_true, mul_one, div_eq_mul_inv] at hk ⊢
    linear_combination
      (-(5 / 3) * (fermion_override f).g * D.sqrt (2 * (fermion_override f).ms
          * ((fermion_override f).nu - (fermion_override f).m)) ^ 3 * 20⁻¹ * D.pi2⁻¹
          * (fermion_override f).ms⁻¹) * hk
      + (-(D.sqrt (2 * (fermion_override f).ms
          * ((fermion_override f).nu - (fermion_override f).m)) ^ 3
          * (fermion_override f).g * 6⁻¹ * D.pi2⁻¹
          * ((fermion_override f).nu - (fermion_override f).m))) * hm1

/-- C27: for `temper > 0`, after `calc_mu` or `calc_density` returns,
`pr = -ed + temper*en + nu*n`; and `calc_mu_zerot` gives
`pr = (2/3)*(ed - n*m*[inc_rest_mass])` when `ms > 0` and
`nu - m*[inc_rest_mass] ≥ 0` (values after the non-interacting override), for
a `sqrt` whose square gives back a non-negative argument. -/
theorem fermion_grand_potential (D : fermion_deps α) (X : fermion_ext α)
    (fr : fermion_nonrel α) (f : fermion α) (temper : α) :
    (0 < temper → ∀ r, fermion_nonrel.calc_mu D X f temper = .ok r →
      r.pr = -r.ed + temper * r.en + r.nu * r.n) ∧
    (0 < temper → ∀ ret fr1 r,
      fermion_nonrel.calc_density D X fr f temper = .returned ret (fr1, r) →
      r.pr = -r.ed + temper * r.en + r.nu * r.n) ∧
    ((∀ x, 0 ≤ x → D.sqrt x * D.sqrt x = x) → 0 < (fermion_override f).ms →
      0 ≤ (fermion_override f).nu - (fermion_override f).m * rest_mass_flag f →
      (fermion_nonrel.calc_mu_zerot D f).pr
        = 2 / 3 * ((fermion_nonrel.calc_mu_zerot D f).ed
            - (fermion_nonrel.calc_mu_zerot D f).n * (fermion_nonrel.calc_mu_zerot D f).m
              * rest_mass_flag f)) := by
  refine ⟨fun hT r h => ?_, fun hT ret fr1 r h => ?_, zerot_pressure_energy D f⟩
  · by_cases hms : (fermion_override f).ms < 0
    · simp [fermion_nonrel.calc_mu, not_lt.mpr hT.le, ne_of_gt hT, hms] at h
    · rw [fermion_calc_mu_pos D X f temper hT (not_lt.mp hms)] at h
      simp only [call.ok.injEq] at h
      rw [← h]
      exact fermion_finish_grand_potential D _ temper _ (ne_of_gt hT)
  · have hT0 : temper ≠ 0 := ne_of_gt hT
    unfold fermion_nonrel.calc_density at h
    split_ifs at h
    split at h
    · exact absurd h (by simp)
    · simp only [icall.returned.injEq, Prod.mk.injEq] at h
      rw [← h.2.2]
      exact fermion_finish_grand_potential D _ temper _ hT0

/-- Witness of C27: `calc_mu` at `temper = 1` on a fermion with `nu = 3`,
`m = ms = 1`, rest mass included. -/
theorem fermion_grand_potential_witness :
    ∃ r, fermion_nonrel.calc_mu fermion_deps_q fermion_ext_q (fermion_q 1) 1 = .ok r ∧
      r.pr = -r.ed + 1 * r.en + r.nu * r.n :=
  ⟨_, fermion_calc_mu_pos fermion_deps_q fermion_ext_q (fermion_q 1) 1 (by norm_num)
      (by norm_num [fermion_override, fermion_q]),
    (fermion_grand_potential fermion_deps_q fermion_ext_q fermion_engine_q
        (fermion_q 1) 1).1 (by norm_num) _
      (fermion_calc_mu_pos fermion_deps_q fermion_ext_q (fermion_q 1) 1 (by norm_num)
        (by norm_num [fermion_override, fermion_q]))⟩

/-! ## Theorems: the bracket search of `fermion_nonrel::nu_from_n` -/

theorem solve_fun_ieee_toOption (D : fermion_deps α) (X : fermion_ext α) (x nog msT : α) :
    (fermion_nonrel.solve_fun_ieee D X x nog msT).toOption
      = fermion_nonrel.solve_fun D X x nog msT := by
  unfold fermion_nonrel.solve_fun_ieee fermion_nonrel.solve_fun xdiv fdiv
  by_cases h : nog = 0
  · simp only [h, if_true, Option.map_none']
    split_ifs <;> rfl
  · simp only [h, if_false, Option.map_some']
    rfl

theorem prod_pos_iff (yhigh ylow : xdouble α) :
    prod_pos yhigh ylow = true ↔
      (yhigh.pos = true ∧ ylow.pos = true) ∨ (yhigh.neg = true ∧ ylow.neg = true) := by
  cases yhigh <;> cases ylow <;>
    simp only [prod_pos, xmul, xdouble.pos, xdouble.neg, decide_eq_true_eq, gt_iff_lt,
      Bool.false_eq_true, and_false, false_and, or_false, false_or, and_true, true_and,
      and_self]
  · exact mul_pos_iff
  · split_ifs with h1 h2 <;> simp [xdouble.pos, h1]
  · split_ifs with h1 h2
    · simp [xdouble.pos]; linarith
    · simp [xdouble.pos, h2]
    · simp [xdouble.pos]; exact not_lt.mp h2
  · split_ifs with h1 h2 <;> simp [xdouble.pos, h1]
  · split_ifs with h1 h2
    · simp [xdouble.pos]; linarith
    · simp [xdouble.pos, h2]
    · simp [xdouble.pos]; exact not_lt.mp h2

theorem bracket_search_from_symmetric (mf : α → xdouble α) (steps : Nat) :
    ∀ c : α, 0 ≤ c →
      ∃ j, j ≤ steps ∧
        bracket_search mf steps c (-c) (mf (-c)) (mf c)
          = (2 ^ j * c, -(2 ^ j * c), mf (-(2 ^ j * c)), mf (2 ^ j * c)) ∧
        (j < steps → prod_pos (mf (-(2 ^ j * c))) (mf (2 ^ j * c)) = false) ∧
        (∀ i, i < j → prod_pos (mf (-(2 ^ i * c))) (mf (2 ^ i * c)) = true) := by
  induction steps with
  | zero =>
    intro c _
    refine ⟨0, le_refl 0, ?_, fun h => absurd h (lt_irrefl 0), fun i hi => absurd hi (Nat.not_lt_zero i)⟩
    simp [bracket_search]
  | succ k ih =>
    intro c hc
    by_cases hp : prod_pos (mf (-c)) (mf c) = true
    · obtain ⟨j, hj, heq, hstop, hall⟩ := ih (2 * c) (by linarith)
      have e1 : c + |c| = 2 * c := by rw [abs_of_nonneg hc]; ring
      have e2 : -c - |c| = -(2 * c) := by rw [abs_of_nonneg hc]; ring
      have e3 : (2 : α) ^ (j + 1) * c = 2 ^ j * (2 * c) := by ring
      refine ⟨j + 1, Nat.succ_le_succ hj, ?_, ?_, ?_⟩
      · simp only [bracket_search, hp, if_true, e1, e2, e3]
        exact heq
      · intro h
        rw [e3]
        exact hstop (Nat.lt_of_succ_lt_succ h)
      · intro i hi
        cases i with
        | zero => simpa using hp
        | succ i =>
          have e4 : (2 : α) ^ (i + 1) * c = 2 ^ i * (2 * c) := by ring
          rw [e4]
          exact hall i (Nat.lt_of_succ_lt_succ hi)
    · refine ⟨0, Nat.zero_le _, ?_, ?_, fun i hi => absurd hi (Nat.not_lt_zero i)⟩
      · simp [bracket_search, hp]
      · intro _
        simpa using hp

/-- With the density `n = 0` the residual `nden/nog-1.0` is `+inf` at both ends
of the bracket as long as `nden > 0` (the stand-in for the Fermi-Dirac integral
is positive), the product of the two is `+inf > 0.0`, and the loop goes on
widening: from `[-3, 3]` it takes 8 steps, to `[-768, 768]`, where
`-blow < GSL_LOG_DBL_MIN` sets `nden` to zero and the residual `0/0-1` is a
NaN. -/
theorem bracket_search_infinite_residuals :
    fermion_nonrel.mfx fermion_deps_q fermion_ext_q (fermion_q 0) 1 3 = .pinf ∧
    fermion_nonrel.mfx fermion_deps_q fermion_ext_q (fermion_q 0) 1 (-3) = .pinf ∧
    prod_pos (.pinf : xdouble ℚ) .pinf = true ∧
    bracket_search (fermion_nonrel.mfx fermion_deps_q fermion_ext_q (fermion_q 0) 1) 10
        3 (-3)
        (fermion_nonrel.mfx fermion_deps_q fermion_ext_q (fermion_q 0) 1 (-3))
        (fermion_nonrel.mfx fermion_deps_q fermion_ext_q (fermion_q 0) 1 3)
      = (768, -768, .pinf, .nan) := by
  refine ⟨?_, ?_, rfl, ?_⟩ <;>
  norm_num [bracket_search, prod_pos, xmul, xdouble.pos, fermion_nonrel.mfx,
    fermion_nonrel.solve_fun_ieee, xdiv, xsub_fin, fermion_q, fermion_ext_q, fermion_deps_q]

/-- C23, counterexample: the primary solver fails and leaves `nex = 3`; the
bracket is `[bhigh, blow] = [-3, 3]`, centred on `0` and not on `3`; the
residuals at its ends are `1/3` and `-1/3`, and the bracketing solver, which
here returns the midpoint of the bracket it is given, yields the root `0`,
hence `nu = -0*temper + m = 1`. -/
theorem bracket_centre_counterexample :
    fermion_nonrel.start fermion_ext_lin fermion_guess3 1 = 3 ∧
    bracket_search (fermion_nonrel.mfx fermion_deps_q fermion_ext_lin fermion_guess3 1) 10
        |3| (-|3|)
        (fermion_nonrel.mfx fermion_deps_q fermion_ext_lin fermion_guess3 1 (-|3|))
        (fermion_nonrel.mfx fermion_deps_q fermion_ext_lin fermion_guess3 1 |3|)
      = (3, -3, .fin (1 / 3), .fin (-(1 / 3))) ∧
    ((3 : ℚ) + -3) / 2 ≠ 3 ∧
    fermion_nonrel.nu_from_n fermion_deps_q fermion_ext_lin fermion_engine_fail
        fermion_guess3 1
      = .ok (fermion_engine_fail, { fermion_guess3 with nu := 1 }) := by
  refine ⟨?_, ?_, by norm_num, ?_⟩
  · norm_num [fermion_nonrel.start, fermion_nonrel.guess, fermion_guess3, fermion_ext_lin]
  · norm_num [bracket_search, prod_pos, xmul, xdouble.pos, fermion_nonrel.mfx,
      fermion_nonrel.solve_fun_ieee, xdiv, xsub_fin, fermion_guess3, fermion_ext_lin,
      fermion_deps_q]
  · norm_num [fermion_nonrel.nu_from_n, fermion_nonrel.nu_from_n_retry,
      fermion_nonrel.nu_from_n_finish, fermion_nonrel.guess,
      fermion_nonrel.solve_fun, fermion_nonrel.solve_fun_ieee, xdiv, xsub_fin, xmul,
      xdouble.pos, xdouble.neg, fermion_nonrel.set_err_nonconv, bracket_search, prod_pos,
      sign_change, fdiv, fermion_guess3, fermion_engine_fail, root_fail, fermion_ext_lin,
      fermion_deps_q]

/-- C23, amended: when the primary solver of `fermion_nonrel::nu_from_n` returns
a non-zero status and leaves `nex1` (with `f.g` and `temper` non-zero), the
bracket search makes `j ≤ 10` widening steps and ends with
`blow = 2^j*|nex1|`, `bhigh = -2^j*|nex1|`, a bracket symmetric about `0`; the
test `yhigh*ylow>0.0` held before each of the `j` steps and fails at the end
when `j < 10`, and it holds exactly when the two residuals are both positive or
both negative, infinities included (never with a zero or a NaN); the
bracketing solver is called on that bracket exactly when the residuals at its
ends have strictly opposite signs, and otherwise the method goes on to the
retry with the status and the value of the primary solver. -/
theorem bracket_search_about_zero (D : fermion_deps α) (X : fermion_ext α)
    (fr : fermion_nonrel α) (f : fermion α) (temper : α) (ret : Int) (nex1 : α)
    (hg : f.g ≠ 0) (hT : temper ≠ 0)
    (hsolve : fr.density_root.solve false (fermion_nonrel.start X f temper)
        (fun x => .ok (fermion_nonrel.mf D X f temper x)) = .ok (ret, nex1))
    (hret : ret ≠ 0) :
    ∃ j, j ≤ 10 ∧
      bracket_search (fermion_nonrel.mfx D X f temper) 10 |nex1| (-|nex1|)
          (fermion_nonrel.mfx D X f temper (-|nex1|)) (fermion_nonrel.mfx D X f temper |nex1|)
        = (2 ^ j * |nex1|, -(2 ^ j * |nex1|),
           fermion_nonrel.mfx D X f temper (-(2 ^ j * |nex1|)),
           fermion_nonrel.mfx D X f temper (2 ^ j * |nex1|)) ∧
      (-(2 ^ j * |nex1|) + 2 ^ j * |nex1|) / 2 = 0 ∧
      (j < 10 → prod_pos (fermion_nonrel.mfx D X f temper (-(2 ^ j * |nex1|)))
          (fermion_nonrel.mfx D X f temper (2 ^ j * |nex1|)) = false) ∧
      (∀ i, i < j → prod_pos (fermion_nonrel.mfx D X f temper (-(2 ^ i * |nex1|)))
          (fermion_nonrel.mfx D X f temper (2 ^ i * |nex1|)) = true) ∧
      (∀ yhigh ylow : xdouble α, prod_pos yhigh ylow = true ↔
        (yhigh.pos = true ∧ ylow.pos = true) ∨ (yhigh.neg = true ∧ ylow.neg = true)) ∧
      (sign_change (fermion_nonrel.mfx D X f temper (-(2 ^ j * |nex1|)))
          (fermion_nonrel.mfx D X f temper (2 ^ j * |nex1|)) = true →
        fermion_nonrel.nu_from_n D X fr f temper =
          match X.solve_bkt false (2 ^ j * |nex1|) (-(2 ^ j * |nex1|))
              (fun x => .ok (fermion_nonrel.mf D X f temper x)) with
          | .error e => .stopped e (fermion_nonrel.set_err_nonconv fr false, f)
          | .ok (ret1, blow2) =>
            fermion_nonrel.nu_from_n_retry X (fermion_nonrel.set_err_nonconv fr false)
              fr.density_root.err_nonconv (fermion_nonrel.mf D X f temper) f temper ret1
              (if ret1 = 0 then blow2 else nex1)) ∧
      (sign_change (fermion_nonrel.mfx D X f temper (-(2 ^ j * |nex1|)))
          (fermion_nonrel.mfx D X f temper (2 ^ j * |nex1|)) = false →
        fermion_nonrel.nu_from_n D X fr f temper =
          fermion_nonrel.nu_from_n_retry X (fermion_nonrel.set_err_nonconv fr false)
            fr.density_root.err_nonconv (fermion_nonrel.mf D X f temper) f temper ret nex1) := by
  obtain ⟨j, hj, heq, hstop, hall⟩ :=
    bracket_search_from_symmetric (fermion_nonrel.mfx D X f temper) 10 |nex1| (abs_nonneg nex1)
  have hsolve2 : (fermion_nonrel.set_err_nonconv fr false).density_root.solve
      (fermion_nonrel.set_err_nonconv fr false).density_root.err_nonconv
      (if fermion_nonrel.guess f temper > -X.GSL_LOG_DBL_MIN * (9 / 10)
        then -X.GSL_LOG_DBL_MIN / 2 else fermion_nonrel.guess f temper)
      (fun x => .ok (fermion_nonrel.solve_fun D X x (f.n / f.g) (f.ms * temper)))
      = .ok (ret, nex1) := hsolve
  have heq2 : bracket_search
      (fun x => fermion_nonrel.solve_fun_ieee D X x (f.n / f.g) (f.ms * temper)) 10
      |nex1| (-|nex1|)
      (fermion_nonrel.solve_fun_ieee D X (-|nex1|) (f.n / f.g) (f.ms * temper))
      (fermion_nonrel.solve_fun_ieee D X |nex1| (f.n / f.g) (f.ms * temper))
      = (2 ^ j * |nex1|, -(2 ^ j * |nex1|),
           fermion_nonrel.mfx D X f temper (-(2 ^ j * |nex1|)),
           fermion_nonrel.mfx D X f temper (2 ^ j * |nex1|)) := heq
  refine ⟨j, hj, heq, by ring, hstop, hall, prod_pos_iff, ?_, ?_⟩
  · intro hs
    simp only [fermion_nonrel.nu_from_n, hsolve2, hret, ne_eq, not_false_eq_true, if_true,
      heq2, hs]
    rfl
  · intro hs
    simp only [fermion_nonrel.nu_from_n, hsolve2, hret, ne_eq, not_false_eq_true, if_true,
      heq2, hs, Bool.false_eq_true, if_false]
    rfl

/-- C23, witness: the amended statement at the fermion `fermion_guess3`, whose
primary solver fails at the starting value `3`. -/
theorem bracket_search_about_zero_witness :
    ∃ j, j ≤ 10 ∧
      bracket_search (fermion_nonrel.mfx fermion_deps_q fermion_ext_lin fermion_guess3 1) 10
          |3| (-|3|)
          (fermion_nonrel.mfx fermion_deps_q fermion_ext_lin fermion_guess3 1 (-|3|))
          (fermion_nonrel.mfx fermion_deps_q fermion_ext_lin fermion_guess3 1 |3|)
        = (2 ^ j * |3|, -(2 ^ j * |3|),
           fermion_nonrel.mfx fermion_deps_q fermion_ext_lin fermion_guess3 1 (-(2 ^ j * |3|)),
           fermion_nonrel.mfx fermion_deps_q fermion_ext_lin fermion_guess3 1 (2 ^ j * |3|)) := by
  obtain ⟨j, hj, heq, _⟩ :=
    bracket_search_about_zero fermion_deps_q fermion_ext_lin fermion_engine_fail
      fermion_guess3 1 1 3
      (by norm_num [fermion_guess3]) (by norm_num)
      (by norm_num [fermion_engine_fail, root_fail, fermion_nonrel.start,
        fermion_nonrel.guess, fermion_guess3, fermion_ext_lin])
      (by decide)
  exact ⟨j, hj, heq⟩

/-! ## Theorems: the non-degenerate entropy integrand -/

theorem entropy_fun_closed_form (p l u T y eta : ℝ) (b : boson ℝ)
    (hy : nondeg_y b T = some y) (he : fdiv b.ms T = some eta)
    (hx : 0 < eta + u - y) (hg : ¬ (u - eta > 200 ∧ u - y > 200))
    (hs : 0 ≤ u * u + 2 * eta * u) :
    entropy_fun (deps_of Real.exp Real.log Real.sqrt p l) u b T
      = .ok (-((eta + u) * Real.sqrt (u * u + 2 * eta * u)
          * ((1 + 1 / (Real.exp (eta + u - y) - 1))
               * Real.log (1 + 1 / (Real.exp (eta + u - y) - 1))
             - 1 / (Real.exp (eta + u - y) - 1)
               * Real.log (1 / (Real.exp (eta + u - y) - 1))))) := by
  have hex : 1 < Real.exp (eta + u - y) := by
    have := Real.add_one_lt_exp (ne_of_gt hx)
    linarith
  have hd : Real.exp (eta + u - y) - 1 ≠ 0 := by linarith
  have hdpos : 0 < Real.exp (eta + u - y) - 1 := by linarith
  have hepos : 0 < Real.exp (eta + u - y) := Real.exp_pos _
  have hcpos : 0 < Real.exp y := Real.exp_pos _
  have ha : Real.exp (eta + u) = Real.exp y * Real.exp (eta + u - y) := by
    rw [← Real.exp_add]; congr 1; ring
  have hm : Real.exp (y - eta - u) = (Real.exp (eta + u - y))⁻¹ := by
    rw [← Real.exp_neg]; congr 1; ring
  have h1 : ¬ ((1 : ℝ) / 1 - Real.exp (y - eta - u) ≤ 0) := by
    rw [hm, not_le]
    have : (Real.exp (eta + u - y))⁻¹ < 1 := inv_lt_one_of_one_lt₀ hex
    linarith
  have hq : ¬ (1 / (Real.exp (eta + u - y) - 1) ≤ 0) := by
    rw [not_le]; positivity
  have hs2 : ¬ (u * u + 2 * eta * u < 0) := not_lt.mpr hs
  have hden : Real.exp (eta + u) - Real.exp y ≠ 0 := by
    rw [ha]
    have : Real.exp y * Real.exp (eta + u - y) - Real.exp y
        = Real.exp y * (Real.exp (eta + u - y) - 1) := by ring
    rw [this]
    exact mul_ne_zero (ne_of_gt hcpos) hd
  have hl1 : Real.log ((1 : ℝ) / 1 - Real.exp (y - eta - u))
      = Real.log (Real.exp (eta + u - y) - 1) - (eta + u - y) := by
    rw [hm]
    have : (1 : ℝ) / 1 - (Real.exp (eta + u - y))⁻¹
        = (Real.exp (eta + u - y) - 1) / Real.exp (eta + u - y) := by
      field_simp
    rw [this, Real.log_div hd (ne_of_gt hepos), Real.log_exp]
  have hl2 : Real.log (1 / (Real.exp (eta + u - y) - 1))
      = -Real.log (Real.exp (eta + u - y) - 1) := by
    rw [one_div, Real.log_inv]
  have hl3 : Real.log (1 + 1 / (Real.exp (eta + u - y) - 1))
      = (eta + u - y) - Real.log (Real.exp (eta + u - y) - 1) := by
    have : (1 : ℝ) + 1 / (Real.exp (eta + u - y) - 1)
        = Real.exp (eta + u - y) / (Real.exp (eta + u - y) - 1) := by
      field_simp
    rw [this, Real.log_div (ne_of_gt hepos) hd, Real.log_exp]
  simp only [entropy_fun, hy, he, Option.bind_eq_bind, Option.some_bind, hg, if_false]
  simp only [fdiv, flog, fsqrt, deps_of, one_ne_zero, h1, hq, hs2, hden, hd, if_false,
    Option.some_bind, Option.pure_def]
  congr 1
  rw [hl1, hl2, hl3, ha]
  generalize Real.log (Real.exp (eta + u - y) - 1) = L at *
  generalize Real.exp (eta + u - y) = ex at *
  generalize Real.exp y = c at *
  generalize Real.sqrt (u * u + 2 * eta * u) = s at *
  have hc : c ≠ 0 := ne_of_gt hcpos
  have hfac : c * ex - c = c * (ex - 1) := by ring
  rw [hfac]
  field_simp
  ring

theorem bose_mode_entropy_pos (n : ℝ) (hn : 0 < n) :
    0 < (1 + n) * Real.log (1 + n) - n * Real.log n := by
  have h1 : 0 < Real.log (1 + n) := Real.log_pos (by linarith)
  have h2 : Real.log n < Real.log (1 + n) := Real.log_lt_log hn (by linarith)
  nlinarith [mul_pos hn (sub_pos.mpr h2)]

/-- C25: at `ms = 1`, `nu = 0`, `T = 1`, `u = 1` (so `eta = 1`, `y = 0`,
`x = eta+u-y = 2`, outside the zeroed tail) `entropy_fun` returns the negative
of `(eta+u)*sqrt(u^2+2*eta*u)*[(1+n)*ln(1+n) - n*ln(n)]`, `n = 1/(exp(x)-1)`,
and that formula is positive there: the integrand is negative. -/
theorem entropy_fun_negative :
    entropy_fun (deps_of Real.exp Real.log Real.sqrt (Real.pi ^ 2) 40) 1 boson_real 1
      = .ok (-((1 + 1) * Real.sqrt (1 * 1 + 2 * 1 * 1)
          * ((1 + 1 / (Real.exp (1 + 1 - 0) - 1))
               * Real.log (1 + 1 / (Real.exp (1 + 1 - 0) - 1))
             - 1 / (Real.exp (1 + 1 - 0) - 1)
               * Real.log (1 / (Real.exp (1 + 1 - 0) - 1))))) ∧
    0 < (1 + 1) * Real.sqrt (1 * 1 + 2 * 1 * 1)
          * ((1 + 1 / (Real.exp (1 + 1 - 0) - 1))
               * Real.log (1 + 1 / (Real.exp (1 + 1 - 0) - 1))
             - 1 / (Real.exp (1 + 1 - 0) - 1)
               * Real.log (1 / (Real.exp (1 + 1 - 0) - 1))) := by
  have hex : (1 : ℝ) < Real.exp (1 + 1 - 0) := by
    have := Real.add_one_lt_exp (show ((1 : ℝ) + 1 - 0) ≠ 0 by norm_num)
    linarith
  have hn : (0 : ℝ) < 1 / (Real.exp (1 + 1 - 0) - 1) := by
    have : (0 : ℝ) < Real.exp (1 + 1 - 0) - 1 := by linarith
    positivity
  refine ⟨entropy_fun_closed_form (Real.pi ^ 2) 40 1 1 0 1 boson_real
      (by norm_num [nondeg_y, boson_real, fdiv]) (by norm_num [boson_real, fdiv])
      (by norm_num) (by norm_num) (by norm_num), ?_⟩
  exact mul_pos (mul_pos (by norm_num) (Real.sqrt_pos.mpr (by norm_num)))
    (bose_mode_entropy_pos _ hn)

/-! ## Theorems: Kriging interpolation -/

theorem foldl_range_add (g : Nat → α) (q0 : α) (n : Nat) :
    (List.range n).foldl (fun q i => q + g i) q0
      = q0 + Finset.sum (Finset.range n) g := by
  induction n with
  | zero => simp
  | succ k ih =>
    rw [List.range_succ, List.foldl_append, ih, Finset.sum_range_succ]
    simp only [List.foldl_cons, List.foldl_nil]
    ring

theorem qual_fun_max_lml (D : krige_deps α) (s : interp_krige_optim α) (x noise_var : α)
    (hmode : s.mode = mode_max_lml)
    (hdiag : D.diagonal_has_zero s.sz
      (D.LU_decomp s.sz
        (KXX_fill (fun irow icol => qual_covar D x (s.px irow) (s.px icol)) noise_var)).1
      = false) :
    (interp_krige_optim.qual_fun D s x noise_var).1
      = s.qual
        + (Finset.sum (Finset.range s.sz) (fun i => 1 / 2 * s.py i *
            axpy_prod s.sz (inv_KXX D matrix_LU s.sz
              (KXX_fill (fun irow icol => qual_covar D x (s.px irow) (s.px icol)) noise_var))
              s.py i)
          + 1 / 2 * D.LU_lndet s.sz (D.LU_decomp s.sz
              (KXX_fill (fun irow icol => qual_covar D x (s.px irow) (s.px icol))
                noise_var)).1) := by
  have h1 : ¬ (mode_max_lml = mode_loo_cv) := by decide
  simp only [interp_krige_optim.qual_fun, hmode, h1, if_false, if_true, hdiag,
    Bool.false_eq_true, foldl_range_add, inv_KXX]
  ring

theorem loo_cv_loop_congr (D : krige_deps α) (noise_var : α) :
    ∀ (todo k : Nat) (s t : interp_krige_optim α),
      s.px = t.px → s.py = t.py → s.sz = t.sz → s.len = t.len → s.qual = t.qual →
      s.matrix_mode = t.matrix_mode →
      (loo_cv_loop D noise_var todo k s).1 = (loo_cv_loop D noise_var todo k t).1 ∧
      (loo_cv_loop D noise_var todo k s).2.1 = (loo_cv_loop D noise_var todo k t).2.1 := by
  intro todo
  induction todo with
  | zero =>
    intro k s t _ _ _ _ hq _
    exact ⟨hq, rfl⟩
  | succ n ih =>
    intro k s t hpx hpy hsz hlen hq hmm
    simp only [loo_cv_loop, hpx, hpy, hsz, hlen, hq, hmm]
    by_cases hm : t.matrix_mode = matrix_LU
    · simp only [hm, if_true]
      by_cases hz : D.diagonal_has_zero (t.sz - 1)
          (D.LU_decomp (t.sz - 1)
            (KXX_fill (fun irow icol =>
              qual_covar D t.len (D.vector_copy_jackknife t.px k irow)
                (D.vector_copy_jackknife t.px k icol)) noise_var)).1 = true
      · simp only [hz, if_true, and_self]
      · simp only [hz, Bool.false_eq_true, if_false]
        exact ih (k + 1) _ _ rfl rfl rfl rfl rfl rfl
    · simp only [hm, if_false]
      by_cases hc : (D.cholesky_decomp (t.sz - 1)
            (KXX_fill (fun irow icol =>
              qual_covar D t.len (D.vector_copy_jackknife t.px k irow)
                (D.vector_copy_jackknife t.px k icol)) noise_var)).1 = 0
      · simp only [hc, ne_eq, not_true_eq_false, if_false]
        exact ih (k + 1) _ _ rfl rfl rfl rfl rfl rfl
      · simp only [ne_eq, hc, not_false_eq_true, if_true, and_self]

theorem qual_fun_loo_cv (D : krige_deps α) (s t : interp_krige_optim α) (x noise_var : α)
    (hs : s.mode = mode_loo_cv) (ht : t.mode = mode_loo_cv)
    (hpx : s.px = t.px) (hpy : s.py = t.py) (hsz : s.sz = t.sz)
    (hmm : s.matrix_mode = t.matrix_mode) :
    (interp_krige_optim.qual_fun D s x noise_var).1
      = (interp_krige_optim.qual_fun D t x noise_var).1 ∧
    (interp_krige_optim.qual_fun D s x noise_var).2.1
      = (interp_krige_optim.qual_fun D t x noise_var).2.1 := by
  simp only [interp_krige_optim.qual_fun, hs, ht, if_true, hsz]
  exact loo_cv_loop_congr D noise_var t.sz 0 _ _ hpx hpy hsz rfl rfl hmm

/-- C29: in the mode `mode_max_lml`, data `x = (0, 1)`, `y = (1, 1)`, length
`1` and noise `3/8`: an object whose member `qual` is `0` returns `3/4`; the
same call repeated on the object as the first call left it (same data, mode and
matrix mode) returns `3/2`; an object whose member `qual` holds `5` returns
`23/4`. -/
theorem qual_fun_accumulates :
    (interp_krige_optim.qual_fun krige_deps_q (krige_lml 0) 1 (3 / 8)).1 = 3 / 4 ∧
    (interp_krige_optim.qual_fun krige_deps_q (krige_lml 0) 1 (3 / 8)).2.1 = 0 ∧
    (interp_krige_optim.qual_fun krige_deps_q
      (interp_krige_optim.qual_fun krige_deps_q (krige_lml 0) 1 (3 / 8)).2.2 1 (3 / 8)).1
      = 3 / 2 ∧
    (interp_krige_optim.qual_fun krige_deps_q (krige_lml 5) 1 (3 / 8)).1 = 23 / 4 := by
  refine ⟨?_, ?_, ?_, ?_⟩ <;>
  norm_num [interp_krige_optim.qual_fun, krige_lml, krige_deps_q, mode_max_lml, mode_loo_cv,
    KXX_fill, qual_covar, axpy_prod, inv2, krige_x, Finset.sum_range_succ, List.range_succ,
    matrix_cholesky]

theorem axpy_prod_inverse (n : Nat) (K inv : Nat → Nat → α) (y : Nat → α)
    (hexact : ∀ i, i < n → ∀ j, j < n →
      Finset.sum (Finset.range n) (fun m => K i m * inv m j) = if i = j then 1 else 0)
    (j : Nat) (hj : j < n) :
    Finset.sum (Finset.range n) (fun i => K j i * axpy_prod n inv y i) = y j := by
  simp only [axpy_prod, Finset.mul_sum]
  rw [Finset.sum_comm]
  have h : ∀ m ∈ Finset.range n,
      Finset.sum (Finset.range n) (fun i => K j i * (inv i m * y m))
        = (if j = m then 1 else 0) * y m := by
    intro m hm
    rw [← hexact j hj m (Finset.mem_range.mp hm), Finset.sum_mul]
    exact Finset.sum_congr rfl (fun i _ => by ring)
  rw [Finset.sum_congr rfl h]
  simp only [ite_mul, one_mul, zero_mul, Finset.sum_ite_eq, Finset.mem_range, hj, if_true]

theorem set_covar_noise_returned (D : krige_deps α) (k k1 : interp_krige α) (n_dim : Nat)
    (x y : Nat → α) (fcovar : α → α → α) (noise_var : α) (err_on_fail : Bool)
    (hret : interp_krige.set_covar_noise D k n_dim x y fcovar noise_var err_on_fail
      = .returned 0 k1) :
    k.min_size ≤ n_dim ∧
    k1 = { k with
      f := fcovar
      Kinvf := axpy_prod n_dim
        (inv_KXX D k.matrix_mode n_dim
          (KXX_fill (fun irow icol => fcovar (x irow) (x icol)) noise_var)) y
      px := x
      py := y
      sz := n_dim } := by
  unfold interp_krige.set_covar_noise at hret
  by_cases hn : n_dim < k.min_size
  · rw [if_pos hn] at hret
    cases hret
  · rw [if_neg hn] at hret
    refine ⟨not_lt.mp hn, ?_⟩
    by_cases hm : k.matrix_mode = matrix_LU
    · simp only [hm, if_true] at hret
      by_cases hz : D.diagonal_has_zero n_dim
          (D.LU_decomp n_dim
            (KXX_fill (fun irow icol => fcovar (x irow) (x icol)) noise_var)).1 = true
      · simp only [hz, if_true] at hret
        cases err_on_fail <;> simp at hret
      · simp only [hz, Bool.false_eq_true, if_false, icall.returned.injEq, true_and] at hret
        rw [← hret]
        simp only [inv_KXX, hm, if_true]
    · simp only [hm, if_false] at hret
      by_cases hc : (D.cholesky_decomp n_dim
            (KXX_fill (fun irow icol => fcovar (x irow) (x icol)) noise_var)).1 = 0
      · simp only [hc, ne_eq, not_true_eq_false, if_false, icall.returned.injEq,
          true_and] at hret
        rw [← hret]
        simp only [inv_KXX, hm, if_false]
      · simp only [ne_eq, hc, not_false_eq_true, if_true] at hret
        cases err_on_fail <;> simp at hret

theorem set_covar_noise_LU (D : krige_deps α) (k : interp_krige α) (n_dim : Nat)
    (x y : Nat → α) (fcovar : α → α → α) (noise_var : α) (err_on_fail : Bool)
    (hn : k.min_size ≤ n_dim) (hm : k.matrix_mode = matrix_LU)
    (hz : D.diagonal_has_zero n_dim
      (D.LU_decomp n_dim
        (KXX_fill (fun irow icol => fcovar (x irow) (x icol)) noise_var)).1 = false) :
    interp_krige.set_covar_noise D k n_dim x y fcovar noise_var err_on_fail
      = .returned 0 { k with
          f := fcovar
          Kinvf := axpy_prod n_dim
            (inv_KXX D k.matrix_mode n_dim
              (KXX_fill (fun irow icol => fcovar (x irow) (x icol)) noise_var)) y
          px := x
          py := y
          sz := n_dim } := by
  unfold interp_krige.set_covar_noise
  rw [if_neg (not_lt.mpr hn)]
  simp only [hm, if_true, hz, Bool.false_eq_true, if_false, inv_KXX]

/-- C30: when `set_covar(n_dim,x,y,fcovar)` (which is `set_covar_noise` with
`noise_var = 0`) returns `0` in either matrix mode, `n_dim` is at least
`min_size` (which the constructor sets to 2); if moreover `fcovar` is symmetric
and the inverse that the chosen matrix mode computes is exact, that is, the
matrix `K(i,j) = fcovar(x[i],x[j])` times it is the identity, then
`eval(x[j]) = y[j]` for every `j < n_dim`. -/
theorem krige_interpolates (D : krige_deps α) (k k1 : interp_krige α) (n_dim : Nat)
    (x y : Nat → α) (fcovar : α → α → α) (err_on_fail : Bool)
    (hsym : ∀ a b, fcovar a b = fcovar b a)
    (hret : interp_krige.set_covar D k n_dim x y fcovar err_on_fail = .returned 0 k1)
    (hexact : ∀ i, i < n_dim → ∀ j, j < n_dim →
      Finset.sum (Finset.range n_dim) (fun m => fcovar (x i) (x m) *
        inv_KXX D k.matrix_mode n_dim
          (KXX_fill (fun irow icol => fcovar (x irow) (x icol)) 0) m j)
        = if i = j then 1 else 0) :
    interp_krige.set_covar D k n_dim x y fcovar err_on_fail
      = interp_krige.set_covar_noise D k n_dim x y fcovar 0 err_on_fail ∧
    k.min_size ≤ n_dim ∧
    ∀ j, j < n_dim → interp_krige.eval k1 (x j) = y j := by
  obtain ⟨hmin, hk1⟩ := set_covar_noise_returned D k k1 n_dim x y fcovar 0 err_on_fail hret
  refine ⟨rfl, hmin, ?_⟩
  intro j hj
  rw [hk1]
  simp only [interp_krige.eval, foldl_range_add, zero_add]
  exact axpy_prod_inverse n_dim (fun i m => fcovar (x i) (x m)) _ y hexact j hj

/-- Witness of C30: `x = (0, 1)`, `y = (3, 5)`, `fcovar(a,b) = 1 + a*b`, in the
mode `matrix_LU`, with linear algebra exact on 2 by 2 matrices. -/
theorem krige_interpolates_witness :
    ∃ k1, interp_krige.set_covar krige_deps_q (krige_new matrix_LU) 2 krige_x krige_y
        krige_f true = .returned 0 k1 ∧
      ∀ j, j < 2 → interp_krige.eval k1 (krige_x j) = krige_y j :=
  ⟨_, set_covar_noise_LU krige_deps_q (krige_new matrix_LU) 2 krige_x krige_y krige_f 0 true
      (by norm_num [krige_new]) rfl
      (by norm_num [krige_deps_q, KXX_fill, krige_f, krige_x]),
    (krige_interpolates krige_deps_q (krige_new matrix_LU) _ 2 krige_x krige_y krige_f true
      (fun a b => by simp only [krige_f]; ring)
      (set_covar_noise_LU krige_deps_q (krige_new matrix_LU) 2 krige_x krige_y krige_f 0 true
        (by norm_num [krige_new]) rfl
        (by norm_num [krige_deps_q, KXX_fill, krige_f, krige_x]))
      (by
        intro i hi j hj
        interval_cases i <;> interval_cases j <;>
        norm_num [inv_KXX, krige_new, matrix_LU, krige_deps_q, KXX_fill, krige_f, krige_x,
          inv2, Finset.sum_range_succ])).2.2⟩

end o2scl
